import Mathlib

/-!
# Verified model of the tempo-codex scheduler core

This file is a shallow embedding, in Lean, of the interaction/geometry core of
the `tempo-codex` scheduler (sources: `src/components/Scheduler/types.ts`,
which carries the `Scheduler` component, and the utility module bundled with
`src/App.tsx`).  Each definition mirrors one source function; the theorems at
the end settle the frozen specification claims C1-C10.

Modelling conventions, used throughout:

* A JS `Date` is modelled by its epoch value as an integer count of
  milliseconds (`Int`).  The app works purely in local wall-clock time and
  never crosses timezones, so local time and the epoch scale coincide in the
  model.  An invalid date (`NaN`) is modelled by `Option` at the few points
  where the source checks for it.
* JS numbers holding fractional values (elapsed hours, pointer coordinates)
  are modelled as exact rationals (`ℚ`).  Every concrete quantity the code
  computes with them (quarter hours, half slots) is exactly representable in
  binary floating point and far from any rounding boundary, so exact rational
  arithmetic agrees with the float semantics on the values that occur.
* `Math.floor (n / d)`, `Math.ceil (n / d)` and `Math.round (n / d)` applied
  to integer quantities with a positive integer divisor are modelled by the
  integer formulas `jsFloorDiv`, `jsCeilDiv`, `jsRoundDiv` below; Lean's `/`
  on `Int` is floor division for positive divisors.
* JS strings that the code builds or parses character by character (the
  drop-zone day keys) are modelled as `List Char`.
-/

namespace Scheduler

/-- `clamp` from the utils module: `Math.max(min, Math.min(max, value))`. -/
def clamp (value lo hi : Int) : Int := max lo (min hi value)

/-- `Math.round x` on an exact rational: round half toward positive infinity. -/
def jsRound (x : ℚ) : Int := Int.floor (x + 1/2)

/-- `Math.floor (n / d)` for integers, `0 < d`: Lean floor division. -/
def jsFloorDiv (n d : Int) : Int := n / d

/-- `Math.ceil (n / d)` for integers, `0 < d`. -/
def jsCeilDiv (n d : Int) : Int := -((-n) / d)

/-- `Math.round (n / d)` for integers, `0 < d` (ties toward positive infinity,
exactly as `Math.round`). -/
def jsRoundDiv (n d : Int) : Int := (2 * n + d) / (2 * d)

/-- Milliseconds in a minute. -/
def msPerMinute : Int := 60000

/-- Milliseconds in a day. -/
def msPerDay : Int := 86400000

/-- `startOfDay` from the utils module: `value.setHours(0, 0, 0, 0)` — the
local midnight at or before the instant. -/
def startOfDay (d : Int) : Int := d - d % 86400000

/-- `minutesOfDay` from the utils module:
`date.getHours() * 60 + date.getMinutes()`. -/
def minutesOfDay (d : Int) : Int := (d % 86400000) / 60000

/-- `dayWithMinutes` from the utils module: `startOfDay(day)` followed by
`setMinutes(totalMinutes, 0, 0)` (the hours are zero, so the call lands
`totalMinutes` minutes after midnight). -/
def dayWithMinutes (day totalMinutes : Int) : Int :=
  startOfDay day + totalMinutes * 60000

/-- `sameDay` from the utils module. -/
def sameDay (a b : Int) : Bool := startOfDay a = startOfDay b

/-- `MIN_DAY_MINUTES` (`START_HOUR * 60`). -/
def MIN_DAY_MINUTES : Int := 0

/-- `MAX_DAY_MINUTES` (`END_HOUR * 60`). -/
def MAX_DAY_MINUTES : Int := 1440

/-- `DEFAULT_WORK_START_MINUTES` (9 h 30). -/
def DEFAULT_WORK_START_MINUTES : Int := 570

/-- `DEFAULT_WORK_END_MINUTES` (19 h 30). -/
def DEFAULT_WORK_END_MINUTES : Int := 1170

/-- `SLOT_HEIGHT`: pixels per slot row. -/
def SLOT_HEIGHT : Int := 30

/-- The empty string (the literal `''` of the source). -/
def emptyStr : String := ""

/-- The source literal `'development'` (fallback task type). -/
def developmentStr : String := "development"

/-- The source literal `'New task'` (title of a created entry). -/
def newTaskStr : String := "New task"

/-- The `Appointment` record of `types.ts`.  `timeSpent` is the elapsed-hours
number; `issueKey` and `completed` are the two optional fields. -/
structure Appointment where
  id : Int
  text : String
  startDate : Int
  endDate : Int
  projectId : Int
  taskType : String
  description : String
  timeSpent : ℚ
  issueKey : Option String
  completed : Option Bool
deriving DecidableEq, Repr

/-- The `SchedulerTaskItemProps` record of `types.ts` (the raw child
descriptor before normalization; `description` and `timeSpent` optional). -/
structure SchedulerTaskItemProps where
  id : Int
  text : String
  startDate : Int
  endDate : Int
  projectId : Int
  taskType : String
  description : Option String
  timeSpent : Option ℚ
  issueKey : Option String
  completed : Option Bool
deriving DecidableEq, Repr

/-- `durationMinutes` from the utils module:
`Math.max(minBlockMinutes, Math.round((end - start) / 60000))`. -/
def durationMinutes (e : Appointment) (minBlockMinutes : Int) : Int :=
  max minBlockMinutes (jsRoundDiv (e.endDate - e.startDate) 60000)

/-- `Math.round((minutes / 60) * 100) / 100`: elapsed hours derived from a
minute count, rounded to two decimals.  Used by `normalizeTaskItem`,
`moveAppointment` and `resizeAppointment`. -/
def roundHours (minutes : Int) : ℚ := (jsRound ((minutes : ℚ) / 60 * 100) : ℚ) / 100

/-- `normalizeTaskItem` from `types.ts`: parses a task child into an
`Appointment`.  If the supplied end is not after the start, the end is
corrected to start + one block; the derived minute count (feeding the default
`timeSpent`) is floored at one block. -/
def normalizeTaskItem (item : SchedulerTaskItemProps) (minBlockMinutes : Int) :
    Appointment :=
  let startDate := item.startDate
  let endDate :=
    if item.endDate ≤ item.startDate then startDate + minBlockMinutes * 60000
    else item.endDate
  let minutes := max minBlockMinutes (jsRoundDiv (endDate - startDate) 60000)
  { id := item.id
    text := item.text
    startDate := startDate
    endDate := endDate
    projectId := item.projectId
    taskType := item.taskType
    description := item.description.getD emptyStr
    timeSpent := item.timeSpent.getD (roundHours minutes)
    issueKey := item.issueKey
    completed := item.completed }

/-! ## Calendar arithmetic

The drop-zone keys are built from `getFullYear`/`getMonth`/`getDate` and
parsed back through `new Date(year, month, day)`.  The ECMAScript calendar
(proleptic Gregorian over the epoch day number) is modelled by the standard
civil-date/day-number conversion pair: `daysFromCivil` is the arithmetic of
`MakeDay`, `civilFromDays` the arithmetic behind the component getters.
Months are 1-based in the conversion pair; `jsGetMonth` shifts to the 0-based
JS convention. -/

/-- Day number (days since 1970-01-01) of a civil date, month 1-based. -/
def daysFromCivil (y m d : Int) : Int :=
  let yAdj := y - (if m ≤ 2 then 1 else 0)
  let era := yAdj / 400
  let yoe := yAdj - era * 400
  let mp := m + (if 2 < m then -3 else 9)
  let doy := (153 * mp + 2) / 5 + d - 1
  let doe := yoe * 365 + yoe / 4 - yoe / 100 + doy
  era * 146097 + doe - 719468

/-- Civil date (year, month 1-based, day) of a day number. -/
def civilFromDays (z : Int) : Int × Int × Int :=
  let zs := z + 719468
  let era := zs / 146097
  let doe := zs - era * 146097
  let yoe := (doe - doe / 1460 + doe / 36524 - doe / 146096) / 365
  let y := yoe + era * 400
  let doy := doe - (365 * yoe + yoe / 4 - yoe / 100)
  let mp := (5 * doy + 2) / 153
  let d := doy - (153 * mp + 2) / 5 + 1
  let m := mp + (if mp < 10 then 3 else -9)
  (y + (if m ≤ 2 then 1 else 0), m, d)

/-- Epoch day number of an instant (`Math.floor(t / msPerDay)`). -/
def epochDay (t : Int) : Int := t / 86400000

/-- `date.getFullYear()`. -/
def jsGetFullYear (t : Int) : Int := (civilFromDays (epochDay t)).1

/-- `date.getMonth()` (0-based, as in JS). -/
def jsGetMonth (t : Int) : Int := (civilFromDays (epochDay t)).2.1 - 1

/-- `date.getDate()` (day of month, 1-based). -/
def jsGetDate (t : Int) : Int := (civilFromDays (epochDay t)).2.2

/-- `new Date(year, month, day)` at local midnight, in epoch ms.  ECMAScript
`MakeFullYear` maps a year argument in `[0, 99]` to `1900 + year`, then
`MakeDay` normalises the (0-based) month into the year and offsets by
`day - 1` from the first of that month. -/
def jsMakeDate (year month day : Int) : Int :=
  let fullYear := if 0 ≤ year ∧ year ≤ 99 then 1900 + year else year
  let ym := fullYear + month / 12
  let mn := month % 12
  (daysFromCivil ym (mn + 1) 1 + (day - 1)) * 86400000

/-! ## Decimal printing and parsing of the day-key pieces -/

/-- Fuel-driven digit printer: the decimal digits of `n`, most significant
first, given at least as much fuel as `n` itself. -/
def natCharsAux : Nat → Nat → List Char
  | 0, _ => []
  | fuel + 1, n =>
    if n = 0 then []
    else natCharsAux fuel (n / 10) ++ [Char.ofNat (48 + n % 10)]

/-- The decimal digits of a natural number as characters, most significant
first (`${n}` for a non-negative integer). -/
def natChars (n : Nat) : List Char :=
  if n = 0 then ['0'] else natCharsAux n n

/-- `${n}` for an integer (a leading dash for negatives). -/
def intChars (n : Int) : List Char :=
  if n < 0 then '-' :: natChars (-n).toNat else natChars n.toNat

/-- `String.prototype.split(sep)` on a character list (single-character
separator, as used by `parseDayKey`). -/
def splitOnChar (sep : Char) : List Char → List (List Char)
  | [] => [[]]
  | c :: rest =>
    if c = sep then [] :: splitOnChar sep rest
    else
      match splitOnChar sep rest with
      | h :: t => (c :: h) :: t
      | [] => [[c]]

/-- The digit value of a decimal digit character, if it is one. -/
def isDigitChar (c : Char) : Bool := 48 ≤ c.toNat && c.toNat ≤ 57

/-- Parse an unsigned decimal digit string. -/
def parseNatChars (s : List Char) : Option Nat :=
  if s.all isDigitChar then
    some (Nat.ofDigits 10 ((s.map fun c => c.toNat - 48).reverse))
  else none

/-- `Number(str)` on the strings that reach `parseDayKey`: the empty string
is `0`, an optional leading dash followed by decimal digits is the signed
value, anything else is `NaN` (`none`).  Other numeric syntaxes (fractions,
exponents, hex, surrounding whitespace) can never be produced by `dayKey`
and are not modelled. -/
def jsNumberOfChars (s : List Char) : Option Int :=
  match s with
  | [] => some 0
  | c :: rest =>
    if c = '-' then
      if rest = [] then none else (parseNatChars rest).map fun n => -(n : Int)
    else (parseNatChars (c :: rest)).map fun n => (n : Int)

/-- `dayKey` from the utils module:
`` `${date.getFullYear()}-${date.getMonth()}-${date.getDate()}` ``. -/
def dayKey (t : Int) : List Char :=
  intChars (jsGetFullYear t) ++ '-' :: intChars (jsGetMonth t) ++
    '-' :: intChars (jsGetDate t)

/-- `parseDayKey` from the utils module: split the key on dashes, run the
first three pieces through `Number` (a missing piece destructures to
`undefined`, whose `Number` is `NaN`), return `null` on any `NaN`, and
otherwise build `new Date(year, month, day)`. -/
def parseDayKey (value : List Char) : Option Int :=
  let parts := splitOnChar '-' value
  let year := (parts[0]?).bind jsNumberOfChars
  let month := (parts[1]?).bind jsNumberOfChars
  let day := (parts[2]?).bind jsNumberOfChars
  match year, month, day with
  | some y, some m, some d => some (jsMakeDate y m d)
  | _, _, _ => none

/-! ## Lane layout engine (`buildDayLayout`) -/

/-- Minute-of-day at which an entry's card starts
(`minutesOfDay(new Date(entry.startDate))`). -/
def entryStartMin (e : Appointment) : Int := minutesOfDay e.startDate

/-- Minute at which an entry's card ends: start plus the duration-floored
minute count (`start + durationMinutes(entry, slotMinutes)`). -/
def entryEndMin (slotMinutes : Int) (e : Appointment) : Int :=
  entryStartMin e + durationMinutes e slotMinutes

/-- The loop body of `buildDayLayout`, run over the sorted entries: scan the
lane end times in index order (`findIndex(laneEnd => start >= laneEnd)`),
place the entry in the first lane that has ended, extending it, else open a
new lane.  Returns the `(entry, lane)` assignments in processing order
together with the final lane end times. -/
def layoutRun (slotMinutes : Int) :
    List Appointment → List Int → List (Appointment × Nat) × List Int
  | [], laneEnds => ([], laneEnds)
  | e :: rest, laneEnds =>
    let start := entryStartMin e
    let nd := start + durationMinutes e slotMinutes
    match laneEnds.findIdx? (fun laneEnd => decide (laneEnd ≤ start)) with
    | some i =>
      let r := layoutRun slotMinutes rest (laneEnds.set i nd)
      ((e, i) :: r.1, r.2)
    | none =>
      let r := layoutRun slotMinutes rest (laneEnds ++ [nd])
      ((e, laneEnds.length) :: r.1, r.2)

/-- The comparator of `buildDayLayout`'s sort:
`(a, b) => new Date(a.startDate).getTime() - new Date(b.startDate).getTime()`
(JS `Array.prototype.sort` is stable, i.e. a stable merge sort under this
ordering). -/
def startDateLe (a b : Appointment) : Bool := a.startDate ≤ b.startDate

/-- The `(entry, lane)` assignments produced by `buildDayLayout`'s loop (the
insertion sequence of its `laneById` map). -/
def layoutPairs (entries : List Appointment) (slotMinutes : Int) :
    List (Appointment × Nat) :=
  (layoutRun slotMinutes (entries.mergeSort startDateLe) []).1

/-- The `DayLayout` record: lane per entry id and the day's lane count. -/
structure DayLayout where
  laneById : List (Int × Nat)
  laneCount : Nat
deriving DecidableEq, Repr

/-- `buildDayLayout` from the utils module. -/
def buildDayLayout (entries : List Appointment) (slotMinutes : Int) : DayLayout :=
  let r := layoutRun slotMinutes (entries.mergeSort startDateLe) []
  { laneById := r.1.map fun p => (p.1.id, p.2)
    laneCount := max 1 r.2.length }

/-- Whether entry `e`'s card interval `[start, end)` contains the instant
`t` (minutes of day). -/
def containsInstant (slotMinutes : Int) (e : Appointment) (t : Int) : Bool :=
  decide (entryStartMin e ≤ t) && decide (t < entryEndMin slotMinutes e)

/-- Number of entries of the list whose `[start, end)` interval contains the
instant `t`: the "entries simultaneously overlapping at instant t". -/
def overlapCount (slotMinutes : Int) (entries : List Appointment) (t : Int) : Nat :=
  (entries.filter fun e => containsInstant slotMinutes e t).length

/-- The maximum of `overlapCount` over the start instants of the entries.
Any instant contained in at least one interval is dominated by the latest
start among the intervals containing it, so this is the maximum simultaneous
overlap over all instants (`overlapCount_le_maxOverlap` below). -/
def maxOverlap (slotMinutes : Int) (entries : List Appointment) : Nat :=
  (entries.map fun e => overlapCount slotMinutes entries (entryStartMin e)).foldr max 0

/-- Two `[start, end)` card intervals genuinely overlap. -/
def overlapping (slotMinutes : Int) (a b : Appointment) : Prop :=
  max (entryStartMin a) (entryStartMin b) <
    min (entryEndMin slotMinutes a) (entryEndMin slotMinutes b)

instance (m : Int) (a b : Appointment) : Decidable (overlapping m a b) := by
  unfold overlapping; infer_instance

/-! ## Timeline configuration (`resolvedTimeline`) -/

/-- The resolved timeline record returned by the `resolvedTimeline` memo
(the `slotsPerHour` field, `60 / blockMinutes`, is rendering-only and
omitted). -/
structure Timeline where
  startMinutes : Int
  endMinutes : Int
  workStartMinutes : Int
  workEndMinutes : Int
  blockMinutes : Int
  slotCount : Int
  defaultTaskMinutes : Int
  defaultTaskSlots : Int
  dayStartMinutes : Int
  dayEndMinutes : Int
deriving DecidableEq, Repr

/-- `toOffsetMinutes` from `resolvedTimeline` (on a valid date): whole days
from the reference day's midnight (`Math.round(diff / 86400000)`, the
difference of two midnights) times 1440, plus the value's minutes of day. -/
def toOffsetMinutes (value referenceDay : Int) : Int :=
  jsRoundDiv (startOfDay value - startOfDay referenceDay) 86400000 * 1440 +
    minutesOfDay value

/-- The validation/clamping/snapping pass of `resolvedTimeline` on the parsed
work-range offsets (`null` parse falls back to the defaults): clamp into the
day, force end after start by at least 15 minutes, snap the start down and
the end up to block boundaries, and re-clamp.  The collected warning strings
are diagnostic only and elided. -/
def normalizeWorkRange (parsedStart parsedEnd : Option Int) (blockMinutes : Int) :
    Int × Int :=
  let ws0 := clamp (parsedStart.getD DEFAULT_WORK_START_MINUTES)
    MIN_DAY_MINUTES MAX_DAY_MINUTES
  let we0 := clamp (parsedEnd.getD DEFAULT_WORK_END_MINUTES)
    MIN_DAY_MINUTES MAX_DAY_MINUTES
  let we1 := if we0 ≤ ws0 then min MAX_DAY_MINUTES (ws0 + 15) else we0
  let we2 := if we1 - ws0 < 15 then min MAX_DAY_MINUTES (ws0 + 15) else we1
  let ws1 := if we2 ≤ ws0 then max MIN_DAY_MINUTES (MAX_DAY_MINUTES - 15) else ws0
  let we3 := if we2 ≤ ws0 then MAX_DAY_MINUTES else we2
  let snappedStart := jsFloorDiv ws1 blockMinutes * blockMinutes
  let snappedEnd := jsCeilDiv we3 blockMinutes * blockMinutes
  let ws := clamp snappedStart MIN_DAY_MINUTES (MAX_DAY_MINUTES - blockMinutes)
  let we := clamp snappedEnd (ws + blockMinutes) MAX_DAY_MINUTES
  (ws, we)

/-- `new Date(2026, 0, 1)`: the fallback reference day of `resolvedTimeline`. -/
def defaultReferenceDay : Int := jsMakeDate 2026 0 1

/-- `resolvedTimeline` from `types.ts`: resolve the configured window
(absent or invalid dates are `none`) against the full-day timeline. -/
def resolvedTimeline (startTime endTime : Option Int) (blockMinutes : Int) :
    Timeline :=
  let referenceDay := startTime.getD (endTime.getD defaultReferenceDay)
  let parsedStart := startTime.map fun v => toOffsetMinutes v referenceDay
  let parsedEnd := endTime.map fun v => toOffsetMinutes v referenceDay
  let wr := normalizeWorkRange parsedStart parsedEnd blockMinutes
  let slotCount := max 1 (jsFloorDiv (MAX_DAY_MINUTES - MIN_DAY_MINUTES) blockMinutes)
  let timelineStartMinutes := MIN_DAY_MINUTES
  let timelineEndMinutes := timelineStartMinutes + slotCount * blockMinutes
  let defaultTaskMinutes := max 30 blockMinutes
  { startMinutes := timelineStartMinutes
    endMinutes := timelineEndMinutes
    workStartMinutes := wr.1
    workEndMinutes := wr.2
    blockMinutes := blockMinutes
    slotCount := slotCount
    defaultTaskMinutes := defaultTaskMinutes
    defaultTaskSlots := max 1 (jsRoundDiv defaultTaskMinutes blockMinutes)
    dayStartMinutes := timelineStartMinutes
    dayEndMinutes := timelineEndMinutes }

/-! ## Move commit (`moveAppointment`) -/

/-- The per-item updater inside `moveAppointment`: a non-matching id is
returned unchanged; the matching entry keeps its duration-floored minute
count, is re-anchored at `nextStart`, and gets its elapsed hours recomputed
from that duration. -/
def moveOne (slotMinutes id nextStart : Int) (item : Appointment) : Appointment :=
  if item.id ≠ id then item
  else
    let duration := durationMinutes item slotMinutes
    { item with
      startDate := nextStart
      endDate := nextStart + duration * 60000
      timeSpent := roundHours duration }

/-- `moveAppointment` from `types.ts` (the pure list update inside
`updateAppointments`; the settle animation is visual only). -/
def moveAppointment (canDrag : Bool) (slotMinutes id nextStart : Int)
    (prev : List Appointment) : List Appointment :=
  if ¬ canDrag then prev else prev.map (moveOne slotMinutes id nextStart)

/-! ## Resize controller -/

/-- Which edge handle is being dragged. -/
inductive ResizeEdge where
  | top
  | bottom
deriving DecidableEq, Repr

/-- The `ResizeSession` captured on pointer-down on an edge handle (the
baseline of the gesture). -/
structure ResizeSession where
  id : Int
  edge : ResizeEdge
  day : Int
  pointerStartY : ℚ
  startMinutes : Int
  endMinutes : Int
deriving DecidableEq, Repr

/-- The transient `ResizeDraft` (current candidate range). -/
structure ResizeDraft where
  id : Int
  startDate : Int
  endDate : Int
deriving DecidableEq, Repr

/-- The session built by `startResize` from the grabbed entry. -/
def startResizeSession (entry : Appointment) (edge : ResizeEdge) (clientY : ℚ) :
    ResizeSession :=
  { id := entry.id
    edge := edge
    day := startOfDay entry.startDate
    pointerStartY := clientY
    startMinutes := minutesOfDay entry.startDate
    endMinutes := minutesOfDay entry.endDate }

/-- The initial draft set by `startResize` (the entry's own range). -/
def initialResizeDraft (entry : Appointment) : ResizeDraft :=
  ⟨entry.id, entry.startDate, entry.endDate⟩

/-- The minute pair computed by the `onMove` handler of `startResize`:
`deltaSlots = Math.round((clientY - pointerStartY) / SLOT_HEIGHT)` slots of
`slotMinutes` each; the dragged edge is clamped (top: into
`[dayStart, end - block]`; bottom: into `[start + block, dayEnd]`) and the
opposite edge is left untouched. -/
def resizeNextMinutes (slotMinutes dayStartMinutes dayEndMinutes : Int)
    (active : ResizeSession) (moveClientY : ℚ) : Int × Int :=
  let deltaSlots := jsRound ((moveClientY - active.pointerStartY) / (SLOT_HEIGHT : ℚ))
  let deltaMinutes := deltaSlots * slotMinutes
  match active.edge with
  | .top =>
    (clamp (active.startMinutes + deltaMinutes) dayStartMinutes
      (active.endMinutes - slotMinutes),
     active.endMinutes)
  | .bottom =>
    (active.startMinutes,
     clamp (active.endMinutes + deltaMinutes) (active.startMinutes + slotMinutes)
       dayEndMinutes)

/-- The draft written by the `onMove` handler: the minute pair of
`resizeNextMinutes` placed on the session's day. -/
def resizeOnMove (slotMinutes dayStartMinutes dayEndMinutes : Int)
    (active : ResizeSession) (moveClientY : ℚ) : ResizeDraft :=
  let nm := resizeNextMinutes slotMinutes dayStartMinutes dayEndMinutes active moveClientY
  ⟨active.id, dayWithMinutes active.day nm.1, dayWithMinutes active.day nm.2⟩

/-- `stopResizing` from `types.ts`, reduced to its commit decision: the
gesture commits `(id, startDate, endDate)` (handed to `resizeAppointment`)
exactly when a session and a draft with the session's id are present and the
draft differs from the baseline in minutes of day on either edge; otherwise
it tears down with no mutation. -/
def stopResizing (commit : Bool) (active : Option ResizeSession)
    (draft : Option ResizeDraft) : Option (Int × Int × Int) :=
  match active, draft with
  | some a, some d =>
    let changed := minutesOfDay d.startDate ≠ a.startMinutes ∨
      minutesOfDay d.endDate ≠ a.endMinutes
    if commit ∧ d.id = a.id ∧ changed then some (a.id, d.startDate, d.endDate)
    else none
  | _, _ => none

/-! ## Create-by-drag controller -/

/-- A project option (`data.ts`). -/
structure Project where
  id : Int
  text : String
  color : String
deriving DecidableEq, Repr

/-- A task-type option (`data.ts`). -/
structure TaskType where
  id : String
  text : String
  billable : Bool
deriving DecidableEq, Repr

/-- The transient `CreateDraft` of a drag-to-create selection. -/
structure CreateDraft where
  day : List Char
  dayDate : Int
  startSlot : Int
  endSlot : Int
deriving DecidableEq, Repr

/-- The draft entry handed to `onTaskCreate` (an `Appointment` without id). -/
structure TaskDraft where
  text : String
  startDate : Int
  endDate : Int
  projectId : Int
  taskType : String
  description : String
  timeSpent : ℚ
  completed : Bool
deriving DecidableEq, Repr

/-- The context metadata handed to `onTaskCreate`. -/
structure CreateContext where
  day : Int
  slot : Int
  durationMinutes : Int
deriving DecidableEq, Repr

/-- JS `x || fallback` on an optional integer (`projects[0]?.id || 1`):
`undefined` and the falsy `0` both fall through. -/
def jsOrInt (o : Option Int) (fallback : Int) : Int :=
  match o with
  | some v => if v = 0 then fallback else v
  | none => fallback

/-- JS `x || fallback` on an optional string (`taskTypes[0]?.id || '...'`):
`undefined` and the falsy empty string both fall through. -/
def jsOrStr (o : Option String) (fallback : String) : String :=
  match o with
  | some v => if v = emptyStr then fallback else v
  | none => fallback

/-- `addTaskAtSlot` from `types.ts`: snap the requested duration to the
nearest block multiple (at least one block), clamp the start slot so the
entry fits the day window, build the draft entry, and emit it with its
placement context.  The project/task-type filters are `none` for `'all'`. -/
def addTaskAtSlot (canCreate : Bool) (tl : Timeline) (projectFilter : Option Int)
    (taskTypeFilter : Option String) (projects : List Project)
    (taskTypes : List TaskType) (day slot durationMin : Int) :
    Option (TaskDraft × CreateContext) :=
  if ¬ canCreate then none
  else
    let snappedDuration := max tl.blockMinutes
      (jsRoundDiv durationMin tl.blockMinutes * tl.blockMinutes)
    let durationSlots := max 1 (jsCeilDiv snappedDuration tl.blockMinutes)
    let maxStart := max 0 (tl.slotCount - durationSlots)
    let safeSlot := clamp slot 0 maxStart
    let startDate := dayWithMinutes day (tl.startMinutes + safeSlot * tl.blockMinutes)
    let endDate := startDate + snappedDuration * 60000
    let projectId := match projectFilter with
      | none => jsOrInt ((projects.head?).map Project.id) 1
      | some value => value
    let taskType := match taskTypeFilter with
      | none => jsOrStr ((taskTypes.head?).map TaskType.id) developmentStr
      | some value => value
    some ({ text := newTaskStr
            startDate := startDate
            endDate := endDate
            projectId := projectId
            taskType := taskType
            description := emptyStr
            timeSpent := (snappedDuration : ℚ) / 60
            completed := false },
          { day := startOfDay day
            slot := safeSlot
            durationMinutes := snappedDuration })

/-- `stopCreateSelection` from `types.ts`, reduced to its commit decision:
on a committing release with an active selection, the direction-agnostic
slot span is computed; a one-slot span uses the default task duration, a
longer span uses span × block; the result goes through `addTaskAtSlot`. -/
def stopCreateSelection (commit canCreate : Bool) (active : Option CreateDraft)
    (tl : Timeline) (projectFilter : Option Int) (taskTypeFilter : Option String)
    (projects : List Project) (taskTypes : List TaskType) :
    Option (TaskDraft × CreateContext) :=
  if ¬ canCreate then none
  else match active with
    | none => none
    | some a =>
      if ¬ commit then none
      else
        let minSlot := min a.startSlot a.endSlot
        let maxSlot := max a.startSlot a.endSlot
        let draggedSlots := max 1 (maxSlot - minSlot + 1)
        let durationMin :=
          if draggedSlots = 1 then tl.defaultTaskMinutes
          else draggedSlots * tl.blockMinutes
        addTaskAtSlot canCreate tl projectFilter taskTypeFilter projects taskTypes
          a.dayDate minSlot durationMin

/-! ## Drag-move release (`onDndDragEnd`) -/

/-- The `DragPreview` candidate drop zone: a grid day column plus top slot,
or a month day cell. -/
inductive DragPreview where
  | grid (day : List Char) (slot : Int)
  | month (day : List Char)
deriving DecidableEq, Repr

/-- `onDndDragEnd` from `types.ts`, as the transformation of the appointment
list (the handler's only mutation path is `moveAppointment`).  Guards mirror
the source: drag disabled, an active resize session, a falsy dragging id
(JS `!draggingId`, so the id 0 counts as absent) or a missing drag preview
all discard the gesture, leaving the list untouched.  A grid preview moves
the entry to the decoded day at the slot's minute; a month preview moves it
to the decoded day keeping its time of day. -/
def onDndDragEnd (canDrag resizeActive : Bool) (tl : Timeline)
    (draggingId : Option Int) (dragPreview : Option DragPreview)
    (appointments : List Appointment) : List Appointment :=
  if ¬ canDrag then appointments
  else if resizeActive then appointments
  else match draggingId, dragPreview with
    | some id, some preview =>
      if id = 0 then appointments
      else match preview with
        | .grid dayK slot =>
          match parseDayKey dayK with
          | some day =>
            moveAppointment canDrag tl.blockMinutes id
              (dayWithMinutes day (tl.startMinutes + slot * tl.blockMinutes))
              appointments
          | none => appointments
        | .month dayK =>
          match parseDayKey dayK, appointments.find? fun e => decide (e.id = id) with
          | some day, some source =>
            moveAppointment canDrag tl.blockMinutes id
              (dayWithMinutes day (minutesOfDay source.startDate)) appointments
          | _, _ => appointments
    | _, _ => appointments

/-! ## Claim C2 — duration floor of `normalizeTaskItem` -/

/-- C2 counterexample: `normalizeTaskItem` only corrects `end ≤ start`.  A
caller-supplied range of 5 minutes (300000 ms) with a 15-minute block is kept
verbatim, so the normalized appointment violates
`endDate − startDate ≥ blockSize` (5 min < 15 min). -/
theorem normalizeTaskItem_keeps_short_positive_duration :
    (normalizeTaskItem ⟨1, emptyStr, 0, 300000, 1, emptyStr, none, none, none, none⟩
        15).endDate -
      (normalizeTaskItem ⟨1, emptyStr, 0, 300000, 1, emptyStr, none, none, none, none⟩
        15).startDate = 300000 ∧
    (300000 : Int) < 15 * 60000 := by
  constructor
  · rfl
  · decide

/-- C2 (amended): after `normalizeTaskItem`, the start is kept, the end is
strictly after the start, an input with `end ≤ start` gets exactly one block
of duration, and an input already at least one block long keeps a duration of
at least one block.  (An input strictly between zero and one block is kept
verbatim; only the derived elapsed-hours minute count is floored.) -/
theorem normalizeTaskItem_duration_floor (item : SchedulerTaskItemProps)
    (minBlockMinutes : Int) (hm : 0 < minBlockMinutes) :
    (normalizeTaskItem item minBlockMinutes).startDate = item.startDate ∧
    (normalizeTaskItem item minBlockMinutes).startDate <
      (normalizeTaskItem item minBlockMinutes).endDate ∧
    (item.endDate ≤ item.startDate →
      (normalizeTaskItem item minBlockMinutes).endDate -
        (normalizeTaskItem item minBlockMinutes).startDate = minBlockMinutes * 60000) ∧
    (minBlockMinutes * 60000 ≤ item.endDate - item.startDate →
      minBlockMinutes * 60000 ≤
        (normalizeTaskItem item minBlockMinutes).endDate -
          (normalizeTaskItem item minBlockMinutes).startDate) := by
  simp only [normalizeTaskItem]
  split_ifs with h <;> refine ⟨by trivial, ?_, ?_, ?_⟩ <;> intros <;> omega

/-- Witness for C2's amended theorem at a concrete degenerate input
(`end = start`, 15-minute block). -/
theorem normalizeTaskItem_duration_floor_witness :
    (normalizeTaskItem ⟨2, emptyStr, 0, 0, 1, emptyStr, none, none, none, none⟩
        15).endDate -
      (normalizeTaskItem ⟨2, emptyStr, 0, 0, 1, emptyStr, none, none, none, none⟩
        15).startDate = 15 * 60000 :=
  (normalizeTaskItem_duration_floor
    ⟨2, emptyStr, 0, 0, 1, emptyStr, none, none, none, none⟩ 15
    (by decide)).2.2.1 (by decide)

/-! ## Claim C4 — resize edge independence and clamping -/

/-- C4 (amended): throughout a resize gesture every pointer-move recomputes
the draft from the session baseline; dragging the top edge leaves the end
minute untouched and dragging the bottom edge leaves the start minute
untouched, and — for a baseline that lies inside the day window with at
least one block of duration — the updated pair always satisfies
`start + blockSize ≤ end`, with the start no earlier than the window start
and the end no later than the window end.  The duration hypothesis is
necessary: a stored entry shorter than one block (which `normalizeTaskItem`
keeps verbatim) yields drafts that keep the short duration, because the
dragged edge is clamped into an inverted range that collapses onto its
lower bound. -/
theorem resizeNextMinutes_edge_independent (slotMinutes dayStartMinutes
    dayEndMinutes : Int) (active : ResizeSession) (y : ℚ)
    (hbase : dayStartMinutes ≤ active.startMinutes)
    (hdur : active.startMinutes + slotMinutes ≤ active.endMinutes)
    (hend : active.endMinutes ≤ dayEndMinutes) :
    (active.edge = ResizeEdge.top →
      (resizeNextMinutes slotMinutes dayStartMinutes dayEndMinutes active y).2 =
        active.endMinutes) ∧
    (active.edge = ResizeEdge.bottom →
      (resizeNextMinutes slotMinutes dayStartMinutes dayEndMinutes active y).1 =
        active.startMinutes) ∧
    (resizeNextMinutes slotMinutes dayStartMinutes dayEndMinutes active y).1 +
        slotMinutes ≤
      (resizeNextMinutes slotMinutes dayStartMinutes dayEndMinutes active y).2 ∧
    dayStartMinutes ≤
      (resizeNextMinutes slotMinutes dayStartMinutes dayEndMinutes active y).1 ∧
    (resizeNextMinutes slotMinutes dayStartMinutes dayEndMinutes active y).2 ≤
      dayEndMinutes := by
  obtain ⟨i, edge, day, y0, s, e⟩ := active
  dsimp only at hbase hdur hend
  cases edge
  case top =>
    dsimp only [resizeNextMinutes]
    obtain ⟨dm, hdm⟩ : ∃ dm, jsRound ((y - y0) / (SLOT_HEIGHT : ℚ)) * slotMinutes = dm :=
      ⟨_, rfl⟩
    rw [hdm]
    have h1 : dayStartMinutes ≤ clamp (s + dm) dayStartMinutes (e - slotMinutes) := by
      unfold clamp; omega
    have h2 : clamp (s + dm) dayStartMinutes (e - slotMinutes) ≤ e - slotMinutes := by
      unfold clamp; omega
    exact ⟨fun _ => rfl, fun hc => absurd hc (by decide), by omega, h1, hend⟩
  case bottom =>
    dsimp only [resizeNextMinutes]
    obtain ⟨dm, hdm⟩ : ∃ dm, jsRound ((y - y0) / (SLOT_HEIGHT : ℚ)) * slotMinutes = dm :=
      ⟨_, rfl⟩
    rw [hdm]
    have h1 : s + slotMinutes ≤ clamp (e + dm) (s + slotMinutes) dayEndMinutes := by
      unfold clamp; omega
    have h2 : clamp (e + dm) (s + slotMinutes) dayEndMinutes ≤ dayEndMinutes := by
      unfold clamp; omega
    exact ⟨fun hc => absurd hc (by decide), fun _ => rfl, h1, hbase, h2⟩

/-- Counterexample to C4 as stated: a 5-minute baseline entry at 00:00-00:05
(kept verbatim by normalization, per C2) resized at the top edge with no
pointer movement produces the draft 00:00-00:05 again — the end minute (5)
stays strictly below start + blockSize (15), so the `start + blockSize ≤ end`
invariant does not hold after every pointer-move update. -/
theorem resizeNextMinutes_short_entry_stays_short :
    (resizeNextMinutes 15 0 1440 ⟨1, ResizeEdge.top, 0, 0, 0, 5⟩ 0).1 = 0 ∧
    (resizeNextMinutes 15 0 1440 ⟨1, ResizeEdge.top, 0, 0, 0, 5⟩ 0).2 = 5 ∧
    (resizeNextMinutes 15 0 1440 ⟨1, ResizeEdge.top, 0, 0, 0, 5⟩ 0).2 <
      (resizeNextMinutes 15 0 1440 ⟨1, ResizeEdge.top, 0, 0, 0, 5⟩ 0).1 + 15 := by
  have hjr : jsRound (((0:ℚ) - 0) / (SLOT_HEIGHT : ℚ)) = 0 := by
    have hz : ((0:ℚ) - 0) / (SLOT_HEIGHT : ℚ) = 0 := by norm_num
    rw [hz, jsRound, Int.floor_eq_iff]
    norm_num
  simp only [resizeNextMinutes, hjr]
  decide

/-- Witness for C4's amended theorem at a concrete baseline (9:30-11:30
entry, 15-minute block, full-day window, a 75-pixel upward drag of the top
edge). -/
theorem resizeNextMinutes_edge_independent_witness :
    (resizeNextMinutes 15 0 1440 ⟨1, ResizeEdge.top, 0, 300, 570, 690⟩ 225).2 = 690 ∧
    (resizeNextMinutes 15 0 1440 ⟨1, ResizeEdge.top, 0, 300, 570, 690⟩ 225).1 + 15 ≤
      (resizeNextMinutes 15 0 1440 ⟨1, ResizeEdge.top, 0, 300, 570, 690⟩ 225).2 := by
  have h := resizeNextMinutes_edge_independent 15 0 1440
    ⟨1, ResizeEdge.top, 0, 300, 570, 690⟩ 225 (by decide) (by decide) (by decide)
  exact ⟨h.1 rfl, h.2.2.1⟩

/-! ## Claim C7 — resize commit exactly on minute change -/

/-- C7: a committing release of a resize gesture emits a mutation exactly
when the final draft differs from the session baseline in minutes of day on
either edge (for any draft carrying the session's id, which every draft of
the gesture does); in particular the initial draft captured at activation —
a pure click with no movement — commits nothing. -/
theorem stopResizing_commit_iff :
    (∀ (a : ResizeSession) (d : ResizeDraft), d.id = a.id →
      ((stopResizing true (some a) (some d)).isSome = true ↔
        (minutesOfDay d.startDate ≠ a.startMinutes ∨
          minutesOfDay d.endDate ≠ a.endMinutes))) ∧
    (∀ (entry : Appointment) (edge : ResizeEdge) (y : ℚ),
      stopResizing true (some (startResizeSession entry edge y))
        (some (initialResizeDraft entry)) = none) := by
  constructor
  · intro a d hid
    simp [stopResizing, hid]
  · intro entry edge y
    simp [stopResizing, startResizeSession, initialResizeDraft]

/-- Witness for C7 at a concrete session and a one-slot-moved draft. -/
theorem stopResizing_commit_iff_witness :
    (stopResizing true (some ⟨1, ResizeEdge.top, 0, 0, 570, 690⟩)
      (some ⟨1, 33300000, 41400000⟩)).isSome = true :=
  (stopResizing_commit_iff.1 ⟨1, ResizeEdge.top, 0, 0, 570, 690⟩
    ⟨1, 33300000, 41400000⟩ rfl).mpr (by decide)

/-! ## Claim C9 — a drag released outside every drop zone is a no-op -/

/-- C9: releasing a drag-move gesture while no drop zone is resolved (the
drag preview is `null`) discards the gesture: `onDndDragEnd` leaves the
appointment list unchanged, exactly as a cancel would. -/
theorem onDndDragEnd_no_zone_discards (canDrag resizeActive : Bool)
    (tl : Timeline) (draggingId : Option Int)
    (appointments : List Appointment) :
    onDndDragEnd canDrag resizeActive tl draggingId none appointments =
      appointments := by
  cases draggingId <;> simp [onDndDragEnd]

/-! ## Claim C8 — idempotence of the timeline normalization pass -/

/-- Shape of the corrected work range: both ends are block multiples, the
start is in `[0, 1440 − block]`, the end at least one block later and within
the day, for the legal block sizes. -/
theorem normalizeWorkRange_shape (ps pe : Option Int) (b : Int)
    (hb : b = 15 ∨ b = 30 ∨ b = 60) :
    (normalizeWorkRange ps pe b).1 % b = 0 ∧
    (normalizeWorkRange ps pe b).2 % b = 0 ∧
    0 ≤ (normalizeWorkRange ps pe b).1 ∧
    (normalizeWorkRange ps pe b).1 + b ≤ (normalizeWorkRange ps pe b).2 ∧
    (normalizeWorkRange ps pe b).2 ≤ 1440 := by
  rcases hb with hb | hb | hb <;> subst hb <;>
    simp only [normalizeWorkRange, clamp, jsFloorDiv, jsCeilDiv,
      MIN_DAY_MINUTES, MAX_DAY_MINUTES] <;>
    split_ifs <;> refine ⟨?_, ?_, ?_, ?_, ?_⟩ <;> omega

/-- A work range that already has the corrected shape is a fixed point of
the validation/clamping/snapping pass. -/
theorem normalizeWorkRange_fix (ws we b : Int) (hb : b = 15 ∨ b = 30 ∨ b = 60)
    (h1 : ws % b = 0) (h2 : we % b = 0) (h3 : 0 ≤ ws) (h4 : ws + b ≤ we)
    (h5 : we ≤ 1440) :
    normalizeWorkRange (some ws) (some we) b = (ws, we) := by
  have hcomp : (normalizeWorkRange (some ws) (some we) b).1 = ws ∧
      (normalizeWorkRange (some ws) (some we) b).2 = we := by
    rcases hb with hb | hb | hb <;> subst hb <;>
      simp only [normalizeWorkRange, clamp, jsFloorDiv, jsCeilDiv,
        MIN_DAY_MINUTES, MAX_DAY_MINUTES, Option.getD_some] <;>
      split_ifs <;> constructor <;> omega
  calc normalizeWorkRange (some ws) (some we) b
      = ((normalizeWorkRange (some ws) (some we) b).1,
         (normalizeWorkRange (some ws) (some we) b).2) := rfl
    _ = (ws, we) := by rw [hcomp.1, hcomp.2]

/-- C8: the validation/clamping/snapping pass of `resolvedTimeline` is
idempotent for the legal block sizes — feeding its own corrected
`(workStartMinutes, workEndMinutes)` back through the pass (the block size is
passed through unchanged, so the corrected triple is a fixed point) returns
it unchanged. -/
theorem normalizeWorkRange_idempotent (ps pe : Option Int) (b : Int)
    (hb : b = 15 ∨ b = 30 ∨ b = 60) :
    normalizeWorkRange (some (normalizeWorkRange ps pe b).1)
      (some (normalizeWorkRange ps pe b).2) b = normalizeWorkRange ps pe b := by
  obtain ⟨h1, h2, h3, h4, h5⟩ := normalizeWorkRange_shape ps pe b hb
  exact normalizeWorkRange_fix _ _ b hb h1 h2 h3 h4 h5

/-- Witness for C8 at the app's own configuration (9:31-19:29 parsed
offsets, 15-minute block). -/
theorem normalizeWorkRange_idempotent_witness :
    normalizeWorkRange (some (normalizeWorkRange (some 571) (some 1169) 15).1)
      (some (normalizeWorkRange (some 571) (some 1169) 15).2) 15 =
      normalizeWorkRange (some 571) (some 1169) 15 :=
  normalizeWorkRange_idempotent (some 571) (some 1169) 15 (by decide)

/-! ## Rounding helpers for exact multiples -/

/-- `Math.round((k * b) / b) = k` for a positive divisor. -/
theorem jsRoundDiv_mul_cancel (k b : Int) (hb : 0 < b) : jsRoundDiv (k * b) b = k := by
  unfold jsRoundDiv
  have h : 2 * (k * b) + b = b + k * (2 * b) := by ring
  rw [h, Int.add_mul_ediv_right _ _ (by omega), Int.ediv_eq_zero_of_lt (by omega) (by omega)]
  omega

/-- `Math.ceil((k * b) / b) = k` for a positive divisor. -/
theorem jsCeilDiv_mul_cancel (k b : Int) (hb : 0 < b) : jsCeilDiv (k * b) b = k := by
  unfold jsCeilDiv
  have h : -(k * b) = (-k) * b := by ring
  rw [h, Int.mul_ediv_cancel _ (by omega)]
  ring

/-- Behaviour of `addTaskAtSlot` on an exact block-multiple duration
`k × block` (`k ≥ 1`) at a slot that leaves room for it: the snapping and
clamping are the identity, the entry starts at the slot's minute on the day
and lasts exactly the requested duration, and the context reports the slot
and duration verbatim. -/
theorem addTaskAtSlot_spec (tl : Timeline) (pf : Option Int) (tf : Option String)
    (prs : List Project) (tts : List TaskType) (day slot k : Int)
    (hb : 0 < tl.blockMinutes) (hk : 1 ≤ k) (hs : 0 ≤ slot)
    (hroom : slot + k ≤ tl.slotCount) :
    (addTaskAtSlot true tl pf tf prs tts day slot (k * tl.blockMinutes)).map
        (fun r => (r.1.startDate, r.1.endDate, r.2.day, r.2.slot, r.2.durationMinutes)) =
      some (dayWithMinutes day (tl.startMinutes + slot * tl.blockMinutes),
        dayWithMinutes day (tl.startMinutes + slot * tl.blockMinutes) +
          k * tl.blockMinutes * 60000,
        startOfDay day, slot, k * tl.blockMinutes) := by
  have hbk : tl.blockMinutes ≤ k * tl.blockMinutes := by nlinarith
  have hsnap : max tl.blockMinutes (k * tl.blockMinutes) = k * tl.blockMinutes :=
    max_eq_right hbk
  have hclamp : clamp slot 0 (max 0 (tl.slotCount - max 1 k)) = slot := by
    unfold clamp; omega
  simp only [addTaskAtSlot, jsRoundDiv_mul_cancel _ _ hb, jsCeilDiv_mul_cancel _ _ hb,
    hsnap, hclamp, not_true, if_false, Bool.not_true, Option.map_some]
  rfl

/-! ## Claim C6 — create-by-drag span -/

/-- C6: a create gesture dragged over more than one slot (anchor ≠ end, both
inside the slot range) commits an entry of duration
`(max(anchor, end) − min(anchor, end) + 1) × blockSize` starting at the
earlier slot's minute of the selection's day, regardless of drag direction;
the snapping and clamping of `addTaskAtSlot` are the identity here since the
span is an exact block multiple that fits the window. -/
theorem stopCreateSelection_drag_span (st et : Option Int) (b : Int)
    (key : List Char) (d a e : Int) (pf : Option Int) (tf : Option String)
    (prs : List Project) (tts : List TaskType)
    (hb : 0 < b) (ha0 : 0 ≤ a) (he0 : 0 ≤ e) (hne : a ≠ e)
    (haS : a < (resolvedTimeline st et b).slotCount)
    (heS : e < (resolvedTimeline st et b).slotCount) :
    (stopCreateSelection true true (some ⟨key, d, a, e⟩)
        (resolvedTimeline st et b) pf tf prs tts).map
        (fun r => (r.1.startDate, r.1.endDate, r.2.day, r.2.slot,
          r.2.durationMinutes)) =
      some (dayWithMinutes d (min a e * b),
        dayWithMinutes d (min a e * b) + (max a e - min a e + 1) * b * 60000,
        startOfDay d, min a e, (max a e - min a e + 1) * b) := by
  have hblock : (resolvedTimeline st et b).blockMinutes = b := rfl
  have hstart : (resolvedTimeline st et b).startMinutes = 0 := rfl
  have hdragged : max 1 (max a e - min a e + 1) = max a e - min a e + 1 :=
    max_eq_right (by omega)
  have hne1 : ¬ (max a e - min a e + 1 = 1) := by omega
  have hspec := addTaskAtSlot_spec (resolvedTimeline st et b) pf tf prs tts d
    (min a e) (max a e - min a e + 1) (by rw [hblock]; exact hb) (by omega)
    (by omega) (by omega)
  rw [hstart, hblock, zero_add] at hspec
  simp only [stopCreateSelection, reduceIte, hdragged, if_neg hne1]
  exact hspec

/-- Witness for C6 at the spec's own example: dragging slots 10 → 13 with a
15-minute block yields a 60-minute entry at the earlier slot's time
(02:30-03:30 on the full-day window of epoch day 0). -/
theorem stopCreateSelection_drag_span_witness :
    (stopCreateSelection true true (some ⟨[], 0, 10, 13⟩)
        (resolvedTimeline none none 15) none none [] []).map
        (fun r => (r.1.startDate, r.1.endDate, r.2.day, r.2.slot,
          r.2.durationMinutes)) =
      some (9000000, 12600000, 0, 10, 60) := by
  have h := stopCreateSelection_drag_span none none 15 [] 0 10 13 none none [] []
    (by decide) (by decide) (by decide) (by decide) (by decide) (by decide)
  rw [h]
  decide

/-! ## Claim C5 — create-by-click default duration -/

/-- C5 counterexample: with the legal 60-minute block size, a zero-movement
create gesture commits a 60-minute entry (`defaultTaskMinutes` is
`max(30, blockMinutes)`), not the fixed 30 minutes the claim states. -/
theorem stopCreateSelection_click_not_fixed_30 :
    (stopCreateSelection true true (some ⟨[], 0, 10, 10⟩)
        (resolvedTimeline none none 60) none none [] []).map
        (fun r => r.2.durationMinutes) = some 60 ∧
    (30 : Int) < 60 := by
  constructor
  · rfl
  · decide

/-- C5 (amended): a create gesture released with zero pointer movement at
slot `s` (a slot that leaves room for the default entry) commits an entry of
duration `max(30, blockSize)` minutes anchored at the clicked slot — 30
minutes for the 15- and 30-minute blocks, 60 minutes for the 60-minute
block.  In particular with a 15-minute block, clicking slot 38 (09:30)
produces 09:30-10:00. -/
theorem stopCreateSelection_click_default (st et : Option Int) (b : Int)
    (key : List Char) (d s : Int) (pf : Option Int) (tf : Option String)
    (prs : List Project) (tts : List TaskType)
    (hb : b = 15 ∨ b = 30 ∨ b = 60) (hs0 : 0 ≤ s)
    (hroom : s * b + max 30 b ≤ 1440) :
    (stopCreateSelection true true (some ⟨key, d, s, s⟩)
        (resolvedTimeline st et b) pf tf prs tts).map
        (fun r => (r.1.startDate, r.1.endDate, r.2.day, r.2.slot,
          r.2.durationMinutes)) =
      some (dayWithMinutes d (s * b), dayWithMinutes d (s * b) + max 30 b * 60000,
        startOfDay d, s, max 30 b) := by
  have hmin : min s s = s := min_self s
  have hmax : max s s = s := max_self s
  have hone : max 1 (s - s + 1) = 1 := by omega
  rcases hb with hb | hb | hb <;> subst hb
  · have hblock : (resolvedTimeline st et 15).blockMinutes = 15 := rfl
    have hslot : (resolvedTimeline st et 15).slotCount = 96 := rfl
    have hstart : (resolvedTimeline st et 15).startMinutes = 0 := rfl
    have hspec := addTaskAtSlot_spec (resolvedTimeline st et 15) pf tf prs tts d
      s 2 (by omega) (by omega) hs0 (by omega)
    rw [hstart, hblock, zero_add] at hspec
    simp only [stopCreateSelection, reduceIte, hmin, hmax, hone]
    exact hspec
  · have hblock : (resolvedTimeline st et 30).blockMinutes = 30 := rfl
    have hslot : (resolvedTimeline st et 30).slotCount = 48 := rfl
    have hstart : (resolvedTimeline st et 30).startMinutes = 0 := rfl
    have hspec := addTaskAtSlot_spec (resolvedTimeline st et 30) pf tf prs tts d
      s 1 (by omega) (by omega) hs0 (by omega)
    rw [hstart, hblock, zero_add] at hspec
    simp only [stopCreateSelection, reduceIte, hmin, hmax, hone]
    exact hspec
  · have hblock : (resolvedTimeline st et 60).blockMinutes = 60 := rfl
    have hslot : (resolvedTimeline st et 60).slotCount = 24 := rfl
    have hstart : (resolvedTimeline st et 60).startMinutes = 0 := rfl
    have hspec := addTaskAtSlot_spec (resolvedTimeline st et 60) pf tf prs tts d
      s 1 (by omega) (by omega) hs0 (by omega)
    rw [hstart, hblock, zero_add] at hspec
    simp only [stopCreateSelection, reduceIte, hmin, hmax, hone]
    exact hspec

/-- Witness for C5's amended theorem at the spec's example: slot 38, 15-minute
block → start 09:30 (570 min), end 10:00. -/
theorem stopCreateSelection_click_default_witness :
    (stopCreateSelection true true (some ⟨[], 0, 38, 38⟩)
        (resolvedTimeline none none 15) none none [] []).map
        (fun r => (r.1.startDate, r.1.endDate, r.2.day, r.2.slot,
          r.2.durationMinutes)) =
      some (34200000, 36000000, 0, 38, 30) := by
  have h := stopCreateSelection_click_default none none 15 [] 0 38 none none [] []
    (by decide) (by decide) (by decide)
  rw [h]
  decide

/-! ## Claim C3 — move preserves duration -/

/-- A snapshot appointment of 5 minutes with an explicitly overridden
elapsed-hours value, used to refute C3 as universally stated. -/
def shortOverriddenApt : Appointment :=
  ⟨1, emptyStr, 0, 300000, 1, emptyStr, emptyStr, 7, none, none⟩

/-- C3 counterexample: committing a move re-derives the duration through the
block floor and recomputes `timeSpent`.  For a snapshot entry of 5 minutes
(300000 ms) with `timeSpent` overridden to 7, a move with a 15-minute block
produces a 15-minute entry (duration changed) with `timeSpent` 0.25
(attribute other than the time range changed). -/
theorem moveOne_changes_short_duration_and_timeSpent :
    (moveOne 15 1 3600000 shortOverriddenApt).endDate -
        (moveOne 15 1 3600000 shortOverriddenApt).startDate = 900000 ∧
    shortOverriddenApt.endDate - shortOverriddenApt.startDate = 300000 ∧
    (300000 : Int) < 900000 ∧
    (moveOne 15 1 3600000 shortOverriddenApt).timeSpent = 1/4 ∧
    shortOverriddenApt.timeSpent = 7 ∧ (1/4 : ℚ) < 7 := by
  have hd : durationMinutes shortOverriddenApt 15 = 15 := by decide
  have hfl : (⌊(15 : ℚ) / 60 * 100 + 1/2⌋ : ℤ) = 25 := by
    rw [Int.floor_eq_iff]
    norm_num
  have ht : (moveOne 15 1 3600000 shortOverriddenApt).timeSpent = 1/4 := by
    have hcond : ¬ (shortOverriddenApt.id ≠ 1) := by decide
    simp only [moveOne, if_neg hcond, hd, roundHours, jsRound, hfl]
    norm_num
  exact ⟨rfl, rfl, by norm_num, ht, rfl, by norm_num⟩

/-- C3 (amended): a committed move re-anchors the matched entry at the
target start instant; for every entry whose duration is a whole number of
minutes of at least one block — which holds for every entry the scheduler
itself creates or normalizes — the duration `end − start` is preserved
exactly.  `id`, `text`, `projectId`, `taskType`, `description`, `issueKey`
and `completed` keep their prior values; `timeSpent` is recomputed from the
duration (it is unchanged only when it already equalled the duration-derived
hours).  Entries with other ids are untouched, and `moveAppointment` is the
pointwise map of this update. -/
theorem moveOne_preserves_duration (m id t : Int) (item : Appointment)
    (hid : item.id = id) (k : Int)
    (hk : item.endDate - item.startDate = k * 60000) (hkm : m ≤ k) :
    (moveOne m id t item).startDate = t ∧
    (moveOne m id t item).endDate - (moveOne m id t item).startDate =
      item.endDate - item.startDate ∧
    (moveOne m id t item).id = item.id ∧
    (moveOne m id t item).text = item.text ∧
    (moveOne m id t item).projectId = item.projectId ∧
    (moveOne m id t item).taskType = item.taskType ∧
    (moveOne m id t item).description = item.description ∧
    (moveOne m id t item).issueKey = item.issueKey ∧
    (moveOne m id t item).completed = item.completed ∧
    (moveOne m id t item).timeSpent = roundHours (durationMinutes item m) ∧
    (∀ other : Appointment, other.id ≠ id → moveOne m id t other = other) ∧
    (∀ prev : List Appointment,
      moveAppointment true m id t prev = prev.map (moveOne m id t)) := by
  have hdur : durationMinutes item m = k := by
    unfold durationMinutes
    rw [hk, jsRoundDiv_mul_cancel _ _ (by omega)]
    omega
  have hcond : ¬ (item.id ≠ id) := by omega
  refine ⟨?_, ?_, ?_, ?_, ?_, ?_, ?_, ?_, ?_, ?_, ?_, ?_⟩ <;>
    simp only [moveOne, moveAppointment, reduceIte, if_neg hcond, hdur] <;>
    first
      | omega
      | rfl
      | (intro other hother; simp only [if_pos hother])
      | (intro prev; rfl)

/-- Witness for C3's amended theorem: a two-hour entry (id 3) moved to
another instant keeps its 7200000 ms duration. -/
theorem moveOne_preserves_duration_witness :
    (moveOne 15 3 86400000 ⟨3, emptyStr, 34200000, 41400000, 2, emptyStr,
        emptyStr, 2, none, none⟩).endDate -
      (moveOne 15 3 86400000 ⟨3, emptyStr, 34200000, 41400000, 2, emptyStr,
        emptyStr, 2, none, none⟩).startDate =
      (41400000 : Int) - 34200000 :=
  (moveOne_preserves_duration 15 3 86400000
    ⟨3, emptyStr, 34200000, 41400000, 2, emptyStr, emptyStr, 2, none, none⟩
    rfl 120 (by decide) (by decide)).2.1

/-! ## Claim C1 — lane packing: run lemmas -/

/-- The assignments of `layoutRun` project back to the processed entries in
order. -/
theorem layoutRun_fst_map (m : Int) :
    ∀ (es : List Appointment) (ends : List Int),
      (layoutRun m es ends).1.map Prod.fst = es := by
  intro es
  induction es with
  | nil => intro ends; rfl
  | cons e rest ih =>
    intro ends
    simp only [layoutRun]
    cases hfind : ends.findIdx? fun laneEnd => decide (laneEnd ≤ entryStartMin e) with
    | some i => simp [ih]
    | none => simp [ih]

/-- The run never shrinks the lane list. -/
theorem layoutRun_ends_le_length (m : Int) :
    ∀ (es : List Appointment) (ends : List Int),
      ends.length ≤ (layoutRun m es ends).2.length := by
  intro es
  induction es with
  | nil => intro ends; exact le_refl _
  | cons e rest ih =>
    intro ends
    simp only [layoutRun]
    cases hfind : ends.findIdx? fun laneEnd => decide (laneEnd ≤ entryStartMin e) with
    | some i =>
      have h := ih (ends.set i (entryStartMin e + durationMinutes e m))
      simpa using h
    | none =>
      have h := ih (ends ++ [entryStartMin e + durationMinutes e m])
      simp only [List.length_append, List.length_singleton] at h
      simpa using le_trans (by omega) h

/-- Every assigned lane index is inside the final lane list. -/
theorem layoutRun_lane_lt (m : Int) :
    ∀ (es : List Appointment) (ends : List Int) (p : Appointment × Nat),
      p ∈ (layoutRun m es ends).1 → p.2 < (layoutRun m es ends).2.length := by
  intro es
  induction es with
  | nil => intro ends p hp; simp [layoutRun] at hp
  | cons e rest ih =>
    intro ends p hp
    simp only [layoutRun] at hp ⊢
    cases hfind : ends.findIdx? fun laneEnd => decide (laneEnd ≤ entryStartMin e) with
    | some i =>
      rw [hfind] at hp
      simp only [List.mem_cons] at hp
      rcases hp with hp | hp
      · subst hp
        rw [List.findIdx?_eq_some_iff_findIdx_eq] at hfind
        have h2 := layoutRun_ends_le_length m rest
          (ends.set i (entryStartMin e + durationMinutes e m))
        simp only [List.length_set] at h2
        exact lt_of_lt_of_le hfind.1 h2
      · exact ih _ p hp
    | none =>
      rw [hfind] at hp
      simp only [List.mem_cons] at hp
      rcases hp with hp | hp
      · subst hp
        have h2 := layoutRun_ends_le_length m rest
          (ends ++ [entryStartMin e + durationMinutes e m])
        simp only [List.length_append, List.length_singleton] at h2
        simp only []
        omega
      · exact ih _ p hp

/-- A pair of the run that lands in a lane that already existed starts no
earlier than that lane's initial end time (the lane end times only grow
along the run, and a placement requires the lane to have ended). -/
theorem layoutRun_mem_lane_start (m : Int) (hm : 1 ≤ m) :
    ∀ (es : List Appointment) (ends : List Int) (p : Appointment × Nat),
      p ∈ (layoutRun m es ends).1 → ∀ hp : p.2 < ends.length,
      ends.get ⟨p.2, hp⟩ ≤ entryStartMin p.1 := by
  intro es
  induction es with
  | nil => intro ends p hp; simp [layoutRun] at hp
  | cons e rest ih =>
    intro ends p hp hlt
    simp only [layoutRun] at hp
    cases hfind : ends.findIdx? fun laneEnd => decide (laneEnd ≤ entryStartMin e) with
    | some i =>
      rw [hfind] at hp
      simp only [List.mem_cons] at hp
      rw [List.findIdx?_eq_some_iff_findIdx_eq] at hfind
      obtain ⟨hilt, hidx⟩ := hfind
      have hpi : ends[i] ≤ entryStartMin e := by
        have := @List.findIdx_getElem _
          (fun laneEnd => decide (laneEnd ≤ entryStartMin e)) ends (by omega)
        simp only [hidx] at this
        simpa using this
      rcases hp with hp | hp
      · subst hp
        simpa using hpi
      · have h2 := ih (ends.set i (entryStartMin e + durationMinutes e m)) p hp
          (by simpa using hlt)
        have hdur : m ≤ durationMinutes e m := le_max_left _ _
        by_cases hpi2 : p.2 = i
        · subst hpi2
          have hget : (ends.set p.2 (entryStartMin e + durationMinutes e m)).get
              ⟨p.2, by simpa using hlt⟩ = entryStartMin e + durationMinutes e m := by
            simp [List.get_eq_getElem, List.getElem_set_self]
          rw [hget] at h2
          have : ends.get ⟨p.2, hlt⟩ ≤ entryStartMin e := hpi
          omega
        · have hget : (ends.set i (entryStartMin e + durationMinutes e m)).get
              ⟨p.2, by simpa using hlt⟩ = ends.get ⟨p.2, hlt⟩ := by
            simp [List.get_eq_getElem, List.getElem_set_ne (Ne.symm hpi2)]
          rw [hget] at h2
          exact h2
    | none =>
      rw [hfind] at hp
      simp only [List.mem_cons] at hp
      rcases hp with hp | hp
      · subst hp
        simp only [] at hlt
        omega
      · have h2 := ih (ends ++ [entryStartMin e + durationMinutes e m]) p hp
          (by simp; omega)
        have hget : (ends ++ [entryStartMin e + durationMinutes e m]).get
            ⟨p.2, by simp; omega⟩ = ends.get ⟨p.2, hlt⟩ := by
          simp [List.get_eq_getElem, List.getElem_append_left hlt]
        rw [hget] at h2
        exact h2

/-- Any two assignments of the run that share a lane are ordered: the
earlier entry's interval ends no later than the later entry's start. -/
theorem layoutRun_pairwise_lane (m : Int) (hm : 1 ≤ m) :
    ∀ (es : List Appointment) (ends : List Int),
      (layoutRun m es ends).1.Pairwise
        (fun p q => p.2 = q.2 → entryEndMin m p.1 ≤ entryStartMin q.1) := by
  intro es
  induction es with
  | nil => intro ends; simp [layoutRun]
  | cons e rest ih =>
    intro ends
    simp only [layoutRun]
    cases hfind : ends.findIdx? fun laneEnd => decide (laneEnd ≤ entryStartMin e) with
    | some i =>
      simp only []
      refine List.Pairwise.cons ?_ (ih _)
      intro q hq heq
      rw [List.findIdx?_eq_some_iff_findIdx_eq] at hfind
      have hq2 : q.2 < (ends.set i (entryStartMin e + durationMinutes e m)).length := by
        simp only [List.length_set]
        omega
      have h2 := layoutRun_mem_lane_start m hm rest
        (ends.set i (entryStartMin e + durationMinutes e m)) q hq hq2
      have hget : (ends.set i (entryStartMin e + durationMinutes e m)).get
          ⟨q.2, hq2⟩ = entryStartMin e + durationMinutes e m := by
        have : q.2 = i := heq.symm
        subst this
        simp [List.get_eq_getElem, List.getElem_set_self]
      rw [hget] at h2
      exact h2
    | none =>
      simp only []
      refine List.Pairwise.cons ?_ (ih _)
      intro q hq heq
      have hq2 : q.2 < (ends ++ [entryStartMin e + durationMinutes e m]).length := by
        simp only [List.length_append, List.length_singleton]
        omega
      have h2 := layoutRun_mem_lane_start m hm rest
        (ends ++ [entryStartMin e + durationMinutes e m]) q hq hq2
      have hget : (ends ++ [entryStartMin e + durationMinutes e m]).get
          ⟨q.2, hq2⟩ = entryStartMin e + durationMinutes e m := by
        have h3 : q.2 = ends.length := heq.symm
        simp [List.get_eq_getElem, List.getElem_concat_length _ _ _ h3]
      rw [hget] at h2
      exact h2

/-- Attainment: the number of lanes the run ends with is realised as a set
of pairwise-distinct assignments whose entries all contain one common
instant.  `ws` carries, per existing lane, the entry that currently ends it
(its witness); `pairs0` the assignments made so far. -/
theorem layoutRun_attained (m : Int) (hm : 1 ≤ m) :
    ∀ (es : List Appointment) (ends : List Int) (pairs0 : List (Appointment × Nat))
      (ws : List Appointment),
      es.Pairwise (fun a b => entryStartMin a ≤ entryStartMin b) →
      ws.length = ends.length →
      (∀ (j : Nat) (hj : j < ends.length) (hjw : j < ws.length),
        (ws.get ⟨j, hjw⟩, j) ∈ pairs0 ∧
        entryEndMin m (ws.get ⟨j, hjw⟩) = ends.get ⟨j, hj⟩ ∧
        ∀ e ∈ es, entryStartMin (ws.get ⟨j, hjw⟩) ≤ entryStartMin e) →
      (∃ (t : Int) (sub : List (Appointment × Nat)), sub.Nodup ∧
        (∀ x ∈ sub, x ∈ pairs0 ∧ containsInstant m x.1 t = true) ∧
        ends.length ≤ sub.length) →
      ∃ (t : Int) (sub : List (Appointment × Nat)), sub.Nodup ∧
        (∀ x ∈ sub, x ∈ pairs0 ++ (layoutRun m es ends).1 ∧
          containsInstant m x.1 t = true) ∧
        (layoutRun m es ends).2.length ≤ sub.length := by
  intro es
  induction es with
  | nil =>
    intro ends pairs0 ws _ _ _ hbase
    obtain ⟨t, sub, h1, h2, h3⟩ := hbase
    exact ⟨t, sub, h1,
      fun x hx => ⟨List.mem_append_left _ (h2 x hx).1, (h2 x hx).2⟩, h3⟩
  | cons e rest ih =>
    intro ends pairs0 ws hsorted hlen hinv hbase
    obtain ⟨hhead, htail⟩ := List.pairwise_cons.mp hsorted
    simp only [layoutRun]
    cases hfind : ends.findIdx? fun laneEnd => decide (laneEnd ≤ entryStartMin e) with
    | some i =>
      simp only []
      rw [List.findIdx?_eq_some_iff_findIdx_eq] at hfind
      obtain ⟨hilt, _⟩ := hfind
      have h := ih (ends.set i (entryStartMin e + durationMinutes e m))
        (pairs0 ++ [(e, i)]) (ws.set i e) htail (by simp [hlen]) ?_ ?_
      · obtain ⟨t, sub, h1, h2, h3⟩ := h
        refine ⟨t, sub, h1, fun x hx => ⟨?_, (h2 x hx).2⟩, ?_⟩
        · have := (h2 x hx).1
          simpa [List.append_assoc] using this
        · simpa using h3
      · intro j hj hjw
        simp only [List.length_set] at hj
        simp only [List.length_set] at hjw
        by_cases hji : j = i
        · subst hji
          have hg1 : (ws.set j e).get ⟨j, by simpa using hjw⟩ = e := by
            simp [List.get_eq_getElem, List.getElem_set_self]
          have hg2 : (ends.set j (entryStartMin e + durationMinutes e m)).get
              ⟨j, by simpa using hj⟩ = entryStartMin e + durationMinutes e m := by
            simp [List.get_eq_getElem, List.getElem_set_self]
          rw [hg1, hg2]
          exact ⟨List.mem_append_right _ (by simp), rfl, fun b hb => hhead b hb⟩
        · have hg1 : (ws.set i e).get ⟨j, by simpa using hjw⟩ = ws.get ⟨j, hjw⟩ := by
            simp [List.get_eq_getElem, List.getElem_set_ne (Ne.symm hji)]
          have hg2 : (ends.set i (entryStartMin e + durationMinutes e m)).get
              ⟨j, by simpa using hj⟩ = ends.get ⟨j, hj⟩ := by
            simp [List.get_eq_getElem, List.getElem_set_ne (Ne.symm hji)]
          rw [hg1, hg2]
          obtain ⟨k1, k2, k3⟩ := hinv j hj hjw
          exact ⟨List.mem_append_left _ k1, k2,
            fun b hb => k3 b (List.mem_cons_of_mem _ hb)⟩
      · obtain ⟨t, sub, h1, h2, h3⟩ := hbase
        exact ⟨t, sub, h1,
          fun x hx => ⟨List.mem_append_left _ (h2 x hx).1, (h2 x hx).2⟩,
          by simpa using h3⟩
    | none =>
      simp only []
      rw [List.findIdx?_eq_none_iff] at hfind
      have h := ih (ends ++ [entryStartMin e + durationMinutes e m])
        (pairs0 ++ [(e, ends.length)]) (ws ++ [e]) htail (by simp [hlen]) ?_ ?_
      · obtain ⟨t, sub, h1, h2, h3⟩ := h
        refine ⟨t, sub, h1, fun x hx => ⟨?_, (h2 x hx).2⟩, ?_⟩
        · have := (h2 x hx).1
          simpa [List.append_assoc] using this
        · simpa using h3
      · intro j hj hjw
        simp only [List.length_append, List.length_singleton] at hj
        simp only [List.length_append, List.length_singleton, hlen] at hjw
        have hb1 : j < (ws ++ [e]).length := by
          simp only [List.length_append, List.length_singleton, hlen]
          omega
        have hb2 : j < (ends ++ [entryStartMin e + durationMinutes e m]).length := by
          simp only [List.length_append, List.length_singleton]
          omega
        by_cases hji : j = ends.length
        · have hjw2 : j = ws.length := by omega
          have hg1 : (ws ++ [e]).get ⟨j, hb1⟩ = e := by
            simp only [List.get_eq_getElem]
            exact List.getElem_concat_length _ _ _ hjw2 _
          have hg2 : (ends ++ [entryStartMin e + durationMinutes e m]).get
              ⟨j, hb2⟩ = entryStartMin e + durationMinutes e m := by
            simp only [List.get_eq_getElem]
            exact List.getElem_concat_length _ _ _ hji _
          rw [hg1, hg2]
          refine ⟨?_, rfl, fun b hb => hhead b hb⟩
          rw [hji]
          exact List.mem_append_right _ (by simp)
        · have hjlt : j < ends.length := by omega
          have hjwlt : j < ws.length := by omega
          have hg1 : (ws ++ [e]).get ⟨j, hb1⟩ = ws.get ⟨j, hjwlt⟩ := by
            simp [List.get_eq_getElem, List.getElem_append_left hjwlt]
          have hg2 : (ends ++ [entryStartMin e + durationMinutes e m]).get
              ⟨j, hb2⟩ = ends.get ⟨j, hjlt⟩ := by
            simp [List.get_eq_getElem, List.getElem_append_left hjlt]
          rw [hg1, hg2]
          obtain ⟨k1, k2, k3⟩ := hinv j hjlt hjwlt
          exact ⟨List.mem_append_left _ k1, k2,
            fun b hb => k3 b (List.mem_cons_of_mem _ hb)⟩
      · refine ⟨entryStartMin e,
          List.ofFn (fun j : Fin (ends.length + 1) =>
            ((ws ++ [e]).getD (j : Nat) e, (j : Nat))), ?_, ?_, ?_⟩
        · rw [List.nodup_ofFn]
          intro a b hab
          exact Fin.ext (congrArg Prod.snd hab)
        · intro x hx
          rw [List.mem_ofFn] at hx
          obtain ⟨j, hj⟩ := hx
          subst hj
          dsimp only
          have hblen : (j : Nat) < (ws ++ [e]).length := by
            have := j.isLt
            simp only [List.length_append, List.length_singleton, hlen]
            omega
          by_cases hje : (j : Nat) = ends.length
          · have hg1 : (ws ++ [e]).getD (j : Nat) e = e := by
              rw [List.getD_eq_getElem _ _ hblen]
              exact List.getElem_concat_length _ _ _ (by omega) _
            rw [hg1]
            refine ⟨?_, ?_⟩
            · rw [hje]
              exact List.mem_append_right _ (by simp)
            · simp only [containsInstant, Bool.and_eq_true, decide_eq_true_eq]
              have hd : m ≤ durationMinutes e m := le_max_left _ _
              unfold entryEndMin
              omega
          · have hjlt : (j : Nat) < ends.length := by
              have := j.isLt
              omega
            have hjwlt : (j : Nat) < ws.length := by omega
            have hg1 : (ws ++ [e]).getD (j : Nat) e = ws.get ⟨(j : Nat), hjwlt⟩ := by
              rw [List.getD_eq_getElem _ _ hblen]
              simp [List.get_eq_getElem, List.getElem_append_left hjwlt]
            rw [hg1]
            obtain ⟨k1, k2, k3⟩ := hinv (j : Nat) hjlt hjwlt
            refine ⟨List.mem_append_left _ k1, ?_⟩
            simp only [containsInstant, Bool.and_eq_true, decide_eq_true_eq]
            constructor
            · exact k3 e (List.mem_cons_self _ _)
            · have hmem : ends.get ⟨(j : Nat), hjlt⟩ ∈ ends := List.get_mem _ _ _
              have := hfind _ hmem
              simp only [decide_eq_false_iff_not, not_le] at this
              omega
        · simp [hlen]

/-- A duplicate-free list of naturals below `n` has at most `n` elements. -/
theorem nodup_bounded_length_le (l : List Nat) (n : Nat) (hnd : l.Nodup)
    (hb : ∀ x ∈ l, x < n) : l.length ≤ n := by
  have hsub : l.toFinset ⊆ Finset.range n := by
    intro x hx
    rw [List.mem_toFinset] at hx
    rw [Finset.mem_range]
    exact hb x hx
  calc l.length = l.toFinset.card := (List.toFinset_card_of_nodup hnd).symm
    _ ≤ (Finset.range n).card := Finset.card_le_card hsub
    _ = n := Finset.card_range n

/-- A duplicate-free list whose members all lie in `l` and satisfy `p` is no
longer than the count of `p` in `l`. -/
theorem nodup_length_le_countP {α : Type} [DecidableEq α] (sub l : List α)
    (p : α → Bool) (hnd : sub.Nodup) (hmem : ∀ x ∈ sub, x ∈ l ∧ p x = true) :
    sub.length ≤ l.countP p := by
  have hsub : sub.toFinset ⊆ (l.filter p).toFinset := by
    intro x hx
    rw [List.mem_toFinset] at hx
    rw [List.mem_toFinset, List.mem_filter]
    exact ⟨(hmem x hx).1, (hmem x hx).2⟩
  calc sub.length = sub.toFinset.card := (List.toFinset_card_of_nodup hnd).symm
    _ ≤ (l.filter p).toFinset.card := Finset.card_le_card hsub
    _ ≤ (l.filter p).length := List.toFinset_card_le _
    _ = l.countP p := (List.countP_eq_length_filter p l).symm

/-- Every member of a list of naturals is bounded by its running maximum. -/
theorem le_foldr_max (l : List Nat) (a : Nat) (h : a ∈ l) : a ≤ l.foldr max 0 := by
  induction l with
  | nil => simp at h
  | cons x xs ih =>
    rcases List.mem_cons.mp h with h | h
    · subst h
      exact le_max_left _ _
    · exact le_trans (ih h) (le_max_right _ _)

/-- The running maximum of a list of naturals is zero or one of its
members. -/
theorem foldr_max_mem (l : List Nat) : l.foldr max 0 = 0 ∨ l.foldr max 0 ∈ l := by
  induction l with
  | nil => left; rfl
  | cons x xs ih =>
    simp only [List.foldr_cons]
    rcases Nat.le_total x (xs.foldr max 0) with h | h
    · rw [max_eq_right h]
      rcases ih with h0 | hmem
      · rw [h0]
        rw [h0] at h
        interval_cases x
        · left; rfl
      · right
        exact List.mem_cons_of_mem _ hmem
    · rw [max_eq_left h]
      right
      exact List.mem_cons_self _ _

/-- `maxOverlap` dominates the overlap count at every instant: any instant
contained in at least one interval is dominated by the latest start among
the intervals containing it. -/
theorem overlapCount_le_maxOverlap (m : Int) (entries : List Appointment)
    (t : Int) : overlapCount m entries t ≤ maxOverlap m entries := by
  rcases Nat.eq_zero_or_pos (overlapCount m entries t) with h0 | hpos
  · rw [h0]
    exact Nat.zero_le _
  · have hne : entries.filter (fun e => containsInstant m e t) ≠ [] := by
      intro hemp
      rw [overlapCount, hemp] at hpos
      simp at hpos
    obtain ⟨estar, hstar⟩ : ∃ estar,
        (entries.filter fun e => containsInstant m e t).argmax
          (fun e => entryStartMin e) = some estar := by
      cases hh : (entries.filter fun e => containsInstant m e t).argmax
          (fun e => entryStartMin e) with
      | none => exact absurd (List.argmax_eq_none.mp hh) hne
      | some v => exact ⟨v, rfl⟩
    have hstarmem : estar ∈ entries.filter (fun e => containsInstant m e t) :=
      List.argmax_mem hstar
    have hstarP := List.mem_filter.mp hstarmem
    have hstarT : entryStartMin estar ≤ t ∧ t < entryEndMin m estar := by
      have := hstarP.2
      simpa [containsInstant] using this
    have hstep : overlapCount m entries t ≤
        overlapCount m entries (entryStartMin estar) := by
      unfold overlapCount
      rw [← List.countP_eq_length_filter, ← List.countP_eq_length_filter]
      apply List.countP_mono_left
      intro x hx hxt
      have hxmem : x ∈ entries.filter (fun e => containsInstant m e t) :=
        List.mem_filter.mpr ⟨hx, hxt⟩
      have hxle : entryStartMin x ≤ entryStartMin estar :=
        List.le_of_mem_argmax hxmem hstar
      have hxT : entryStartMin x ≤ t ∧ t < entryEndMin m x := by
        simpa [containsInstant] using hxt
      simp only [containsInstant, Bool.and_eq_true, decide_eq_true_eq]
      exact ⟨hxle, lt_of_le_of_lt hstarT.1 hxT.2⟩
    refine le_trans hstep (le_foldr_max _ _ ?_)
    rw [List.mem_map]
    exact ⟨estar, List.mem_of_mem_filter hstarmem, rfl⟩

/-- Minute-of-day is monotone along instants of the same calendar day. -/
theorem minutesOfDay_mono_same_day {a b : Int} (h : startOfDay a = startOfDay b)
    (hle : a ≤ b) : minutesOfDay a ≤ minutesOfDay b := by
  unfold startOfDay at h
  unfold minutesOfDay
  omega

/-- The sort of `buildDayLayout` yields nondecreasing minute starts when all
entries lie on one calendar day. -/
theorem mergeSort_entryStartMin_sorted (entries : List Appointment) (day : Int)
    (hday : ∀ e ∈ entries, startOfDay e.startDate = startOfDay day) :
    (entries.mergeSort startDateLe).Pairwise
      (fun a b => entryStartMin a ≤ entryStartMin b) := by
  have htrans : ∀ a b c : Appointment, startDateLe a b = true →
      startDateLe b c = true → startDateLe a c = true := by
    intro a b c hab hbc
    simp only [startDateLe, decide_eq_true_eq] at hab hbc ⊢
    omega
  have htotal : ∀ a b : Appointment,
      (startDateLe a b || startDateLe b a) = true := by
    intro a b
    simp only [startDateLe, Bool.or_eq_true, decide_eq_true_eq]
    omega
  have hs := @List.sorted_mergeSort _ startDateLe htrans htotal entries
  refine hs.imp_of_mem ?_
  intro a b ha hb hr
  have ha' := hday a ((List.mergeSort_perm entries startDateLe).mem_iff.mp ha)
  have hb' := hday b ((List.mergeSort_perm entries startDateLe).mem_iff.mp hb)
  simp only [startDateLe, decide_eq_true_eq] at hr
  exact minutesOfDay_mono_same_day (ha'.trans hb'.symm) hr

/-- The overlap count of the input entries equals the count over the run's
assignments. -/
theorem overlapCount_eq_pairs_countP (m : Int) (entries : List Appointment)
    (t : Int) :
    overlapCount m entries t =
      (layoutRun m (entries.mergeSort startDateLe) []).1.countP
        (fun p => containsInstant m p.1 t) := by
  unfold overlapCount
  rw [← List.countP_eq_length_filter,
    ← (List.mergeSort_perm entries startDateLe).countP_eq]
  conv_lhs => rw [← layoutRun_fst_map m (entries.mergeSort startDateLe) []]
  rw [List.countP_map]
  rfl

/-- Upper bound: at every instant, at most `laneEnds.length` entries
overlap (entries overlapping one instant occupy pairwise-distinct lanes). -/
theorem overlapCount_le_lanes (m : Int) (hm : 1 ≤ m)
    (entries : List Appointment) (t : Int) :
    overlapCount m entries t ≤
      (layoutRun m (entries.mergeSort startDateLe) []).2.length := by
  rw [overlapCount_eq_pairs_countP m entries t, List.countP_eq_length_filter]
  have hpw := layoutRun_pairwise_lane m hm (entries.mergeSort startDateLe) []
  have hpwf := hpw.filter (fun p => containsInstant m p.1 t)
  have hlanes : ((layoutRun m (entries.mergeSort startDateLe) []).1.filter
      (fun p => containsInstant m p.1 t)).Pairwise (fun p q => p.2 ≠ q.2) := by
    refine hpwf.imp_of_mem ?_
    intro p q hp hq hr heq
    have hpt := (List.mem_filter.mp hp).2
    have hqt := (List.mem_filter.mp hq).2
    simp only [containsInstant, Bool.and_eq_true, decide_eq_true_eq] at hpt hqt
    have := hr heq
    omega
  have hnd : (((layoutRun m (entries.mergeSort startDateLe) []).1.filter
      (fun p => containsInstant m p.1 t)).map Prod.snd).Nodup :=
    List.pairwise_map.mpr hlanes
  have hbound : ∀ x ∈ ((layoutRun m (entries.mergeSort startDateLe) []).1.filter
      (fun p => containsInstant m p.1 t)).map Prod.snd,
      x < (layoutRun m (entries.mergeSort startDateLe) []).2.length := by
    intro x hx
    rw [List.mem_map] at hx
    obtain ⟨p, hp, hpx⟩ := hx
    rw [← hpx]
    exact layoutRun_lane_lt m _ [] p (List.mem_of_mem_filter hp)
  calc ((layoutRun m (entries.mergeSort startDateLe) []).1.filter
      (fun p => containsInstant m p.1 t)).length
      = (((layoutRun m (entries.mergeSort startDateLe) []).1.filter
        (fun p => containsInstant m p.1 t)).map Prod.snd).length := by
        rw [List.length_map]
    _ ≤ (layoutRun m (entries.mergeSort startDateLe) []).2.length :=
        nodup_bounded_length_le _ _ hnd hbound

/-- C1 counterexample: for the empty entry set `buildDayLayout` reports the
defensive lane count 1, while no instant has any overlapping entry — the
maximum simultaneous overlap is 0 — so the stated equality fails on the
empty set. -/
theorem buildDayLayout_empty_laneCount :
    (buildDayLayout [] 15).laneCount = 1 ∧ maxOverlap 15 [] = 0 ∧
      (0 : Nat) < 1 := by
  refine ⟨?_, rfl, by decide⟩
  simp [buildDayLayout, List.mergeSort_nil, layoutRun]

/-- C1 (amended): for entries of one calendar day and a positive block size,
no two assignments of `buildDayLayout` that share a lane have overlapping
`[start, end)` card intervals (for any entry set); the published `laneById`
is exactly the assignment list keyed by id; `maxOverlap` dominates the
overlap count of every instant (so it is the maximum simultaneous overlap);
and for every nonempty entry set the returned lane count equals that
maximum.  (The empty set keeps the defensive lane count 1 against a maximum
overlap of 0.) -/
theorem buildDayLayout_correct (entries : List Appointment) (m day : Int)
    (hm : 1 ≤ m)
    (hday : ∀ e ∈ entries, startOfDay e.startDate = startOfDay day) :
    ((layoutPairs entries m).Pairwise
      (fun p q => p.2 = q.2 → ¬ overlapping m p.1 q.1)) ∧
    (buildDayLayout entries m).laneById =
      (layoutPairs entries m).map (fun p => (p.1.id, p.2)) ∧
    (∀ t, overlapCount m entries t ≤ maxOverlap m entries) ∧
    (entries ≠ [] → (buildDayLayout entries m).laneCount = maxOverlap m entries) := by
  refine ⟨?_, rfl, fun t => overlapCount_le_maxOverlap m entries t, ?_⟩
  · refine (layoutRun_pairwise_lane m hm (entries.mergeSort startDateLe) []).imp ?_
    intro p q h heq
    have := h heq
    unfold overlapping
    omega
  · intro hne
    have hperm := List.mergeSort_perm entries startDateLe
    have hpairs_ne : (layoutRun m (entries.mergeSort startDateLe) []).1 ≠ [] := by
      intro h
      have hmap := layoutRun_fst_map m (entries.mergeSort startDateLe) []
      rw [h] at hmap
      have hsortednil : entries.mergeSort startDateLe = [] := by
        simpa using hmap.symm
      rw [hsortednil] at hperm
      exact hne (hperm.symm.eq_nil)
    obtain ⟨p0, hp0⟩ := List.exists_mem_of_ne_nil _ hpairs_ne
    have hL1 : 1 ≤ (layoutRun m (entries.mergeSort startDateLe) []).2.length :=
      Nat.one_le_iff_ne_zero.mpr
        (Nat.pos_iff_ne_zero.mp
          (lt_of_le_of_lt (Nat.zero_le _)
            (layoutRun_lane_lt m (entries.mergeSort startDateLe) [] p0 hp0)))
    have hatt := layoutRun_attained m hm (entries.mergeSort startDateLe) [] [] []
      (mergeSort_entryStartMin_sorted entries day hday) rfl
      (fun j hj hjw => absurd hj (Nat.not_lt_zero j))
      ⟨0, [], List.nodup_nil, by simp, by simp⟩
    obtain ⟨t0, sub, hnd, hmemsub, hlensub⟩ := hatt
    have hcount : (layoutRun m (entries.mergeSort startDateLe) []).2.length ≤
        overlapCount m entries t0 := by
      refine le_trans hlensub ?_
      rw [overlapCount_eq_pairs_countP m entries t0]
      refine nodup_length_le_countP sub _ _ hnd ?_
      intro x hx
      refine ⟨?_, (hmemsub x hx).2⟩
      have := (hmemsub x hx).1
      simpa using this
    have hup := fun t => overlapCount_le_lanes m hm entries t
    have hmle : (layoutRun m (entries.mergeSort startDateLe) []).2.length ≤
        maxOverlap m entries :=
      le_trans hcount (overlapCount_le_maxOverlap m entries t0)
    have hcount2 : (buildDayLayout entries m).laneCount =
        (layoutRun m (entries.mergeSort startDateLe) []).2.length := by
      simp only [buildDayLayout]
      omega
    rcases foldr_max_mem
        (entries.map fun e => overlapCount m entries (entryStartMin e)) with h0 | hmem
    · have : maxOverlap m entries = 0 := h0
      omega
    · rw [List.mem_map] at hmem
      obtain ⟨e0, he0, heq0⟩ := hmem
      have hmax0 : maxOverlap m entries =
          overlapCount m entries (entryStartMin e0) := heq0.symm
      have : maxOverlap m entries ≤
          (layoutRun m (entries.mergeSort startDateLe) []).2.length := by
        rw [hmax0]
        exact hup _
      omega

/-- Witness for C1's amended theorem: three same-day entries, two of which
overlap, pack into two lanes — equal to the maximum simultaneous overlap. -/
theorem buildDayLayout_correct_witness :
    (buildDayLayout
        [⟨1, emptyStr, 32400000, 39600000, 1, emptyStr, emptyStr, 2, none, none⟩,
         ⟨2, emptyStr, 36000000, 43200000, 1, emptyStr, emptyStr, 2, none, none⟩,
         ⟨3, emptyStr, 39600000, 43200000, 1, emptyStr, emptyStr, 1, none, none⟩]
        15).laneCount =
      maxOverlap 15
        [⟨1, emptyStr, 32400000, 39600000, 1, emptyStr, emptyStr, 2, none, none⟩,
         ⟨2, emptyStr, 36000000, 43200000, 1, emptyStr, emptyStr, 2, none, none⟩,
         ⟨3, emptyStr, 39600000, 43200000, 1, emptyStr, emptyStr, 1, none, none⟩] :=
  (buildDayLayout_correct
    [⟨1, emptyStr, 32400000, 39600000, 1, emptyStr, emptyStr, 2, none, none⟩,
     ⟨2, emptyStr, 36000000, 43200000, 1, emptyStr, emptyStr, 2, none, none⟩,
     ⟨3, emptyStr, 39600000, 43200000, 1, emptyStr, emptyStr, 1, none, none⟩]
    15 0 (by decide)
    (by intro e he; fin_cases he <;> decide)).2.2.2 (by decide)

/-! ## C10: the day-key round trip -/

/-- A printed decimal digit character has code point between 48 and 57. -/
theorem char_ofNat_digit (k : Nat) (hk : k < 10) : (Char.ofNat (48 + k)).toNat = 48 + k := by
  interval_cases k <;> decide

/-- Every character the fuel-driven digit printer emits is a decimal digit. -/
theorem natCharsAux_digits (fuel n : Nat) :
    ∀ c ∈ natCharsAux fuel n, 48 ≤ c.toNat ∧ c.toNat ≤ 57 := by
  induction fuel generalizing n with
  | zero => intro c hc; simp [natCharsAux] at hc
  | succ fuel ih =>
    intro c hc
    by_cases h0 : n = 0
    · simp [natCharsAux, h0] at hc
    · simp only [natCharsAux, if_neg h0, List.mem_append, List.mem_singleton] at hc
      rcases hc with hc | hc
      · exact ih _ c hc
      · have h10 : n % 10 < 10 := Nat.mod_lt _ (by omega)
        rw [hc, char_ofNat_digit _ h10]
        omega

/-- Every character of `natChars n` is a decimal digit. -/
theorem natChars_digits (n : Nat) : ∀ c ∈ natChars n, 48 ≤ c.toNat ∧ c.toNat ≤ 57 := by
  intro c hc
  by_cases h0 : n = 0
  · simp [natChars, h0] at hc
    rw [hc]; decide
  · rw [natChars, if_neg h0] at hc
    exact natCharsAux_digits n n c hc

/-- The printed digits of a natural number never contain a dash. -/
theorem dash_not_mem_natChars (n : Nat) : ¬ ('-' ∈ natChars n) := by
  intro hmem
  have := natChars_digits n _ hmem
  simp at this

/-- Reading the digit values emitted by the fuel-driven printer back with
`Nat.ofDigits` recovers the number, as long as the fuel suffices. -/
theorem parseNatChars_natCharsAux (fuel n : Nat) (h : n ≤ fuel) :
    Nat.ofDigits 10 (((natCharsAux fuel n).map fun c => c.toNat - 48).reverse) = n := by
  induction fuel generalizing n with
  | zero =>
    have : n = 0 := by omega
    simp [natCharsAux, this, Nat.ofDigits]
  | succ fuel ih =>
    by_cases h0 : n = 0
    · simp [natCharsAux, h0, Nat.ofDigits]
    · rw [natCharsAux, if_neg h0]
      rw [List.map_append, List.reverse_append]
      have h10 : n % 10 < 10 := Nat.mod_lt _ (by omega)
      simp only [List.map_cons, List.map_nil, List.reverse_cons, List.reverse_nil,
        List.nil_append, List.cons_append, List.singleton_append]
      rw [Nat.ofDigits_cons]
      rw [char_ofNat_digit _ h10]
      have hrec : n / 10 ≤ fuel := by omega
      rw [ih _ hrec]
      omega

/-- Parsing the printed digits of a natural number gives the number back. -/
theorem parseNatChars_natChars (n : Nat) : parseNatChars (natChars n) = some n := by
  have hall : (natChars n).all isDigitChar = true := by
    rw [List.all_eq_true]
    intro c hc
    have := natChars_digits n c hc
    simp [isDigitChar]
    omega
  rw [parseNatChars, if_pos hall]
  by_cases h0 : n = 0
  · subst h0; decide
  · rw [natChars, if_neg h0]
    rw [parseNatChars_natCharsAux n n (le_refl n)]

/-- `Number` applied to the printed digits of a natural number gives the
number back as an integer. -/
theorem jsNumberOfChars_natChars (n : Nat) : jsNumberOfChars (natChars n) = some (n : Int) := by
  have hne : natChars n ≠ [] := by
    by_cases h0 : n = 0
    · simp [natChars, h0]
    · rw [natChars, if_neg h0]
      intro hnil
      have : Nat.ofDigits 10 (((natCharsAux n n).map fun c => c.toNat - 48).reverse) = n :=
        parseNatChars_natCharsAux n n (le_refl n)
      rw [hnil] at this
      simp [Nat.ofDigits] at this
      omega
  obtain ⟨c, rest, hcr⟩ : ∃ c rest, natChars n = c :: rest := by
    cases hx : natChars n with
    | nil => exact absurd hx hne
    | cons c rest => exact ⟨c, rest, rfl⟩
  rw [hcr, jsNumberOfChars]
  have hdash : ¬ (c = '-') := by
    intro hc
    apply dash_not_mem_natChars n
    rw [hcr, hc]
    exact List.mem_cons_self _ _
  rw [if_neg hdash, ← hcr, parseNatChars_natChars]
  rfl

/-- Splitting a separator-free string yields just that string. -/
theorem splitOnChar_no_sep (sep : Char) (l : List Char) (h : ¬ (sep ∈ l)) :
    splitOnChar sep l = [l] := by
  induction l with
  | nil => rfl
  | cons c rest ih =>
    have hc : ¬ (c = sep) := by
      intro hc; exact h (by rw [hc]; exact List.mem_cons_self _ _)
    have hr : ¬ (sep ∈ rest) := by
      intro hr; exact h (List.mem_cons_of_mem _ hr)
    rw [splitOnChar, if_neg hc, ih hr]

/-- Splitting peels off a separator-free prefix before a separator. -/
theorem splitOnChar_append_sep (sep : Char) (a rest : List Char) (h : ¬ (sep ∈ a)) :
    splitOnChar sep (a ++ sep :: rest) = a :: splitOnChar sep rest := by
  induction a with
  | nil =>
    rw [List.nil_append, splitOnChar, if_pos rfl]
  | cons c a0 ih =>
    have hc : ¬ (c = sep) := by
      intro hc; exact h (by rw [hc]; exact List.mem_cons_self _ _)
    have ha : ¬ (sep ∈ a0) := by
      intro hr; exact h (List.mem_cons_of_mem _ hr)
    rw [List.cons_append, splitOnChar, if_neg hc, ih ha]

set_option maxHeartbeats 1600000 in
/-- The civil date produced by `civilFromDays` is a valid calendar date and
`daysFromCivil` maps it back to the original day number (the two Hinnant
conversions underlying the modelled `Date` getters are mutually inverse). -/
theorem civilFromDays_correct (z : Int) :
    daysFromCivil (civilFromDays z).1 (civilFromDays z).2.1 (civilFromDays z).2.2 = z ∧
    1 ≤ (civilFromDays z).2.1 ∧ (civilFromDays z).2.1 ≤ 12 ∧
    1 ≤ (civilFromDays z).2.2 ∧ (civilFromDays z).2.2 ≤ 31 := by
  simp only [civilFromDays]
  set zs := z + 719468 with hzs
  set era := zs / 146097 with hera
  set doe := zs - era * 146097 with hdoe
  set t := doe - doe / 1460 + doe / 36524 - doe / 146096 with ht
  set yoe := t / 365 with hyoe
  set doy := doe - (365 * yoe + yoe / 4 - yoe / 100) with hdoy
  set mp := (5 * doy + 2) / 153 with hmp
  set d := doy - (153 * mp + 2) / 5 + 1 with hd
  have hdoeB : 0 ≤ doe ∧ doe ≤ 146096 := by omega
  have hyoeB : 0 ≤ yoe ∧ yoe ≤ 399 := by omega
  have e1 : yoe / 4 = t / 1460 := by rw [hyoe]; omega
  have e2 : yoe / 100 = t / 36500 := by rw [hyoe]; omega
  have k2 : t / 36500 = doe / 36524 - doe / 146096 := by
    have h1 : doe / 36524 = 0 ∨ doe / 36524 = 1 ∨ doe / 36524 = 2 ∨ doe / 36524 = 3 ∨ doe / 36524 = 4 := by omega
    have h2 : doe / 146096 = 0 ∨ doe / 146096 = 1 := by omega
    rcases h1 with h1 | h1 | h1 | h1 | h1 <;> rcases h2 with h2 | h2 <;> rw [ht] <;> omega
  have k1 : t / 1460 ≤ doe / 1460 ∧ doe / 1460 ≤ t / 1460 + 1 := by rw [ht]; omega
  have hdoyB : 0 ≤ doy ∧ doy ≤ 365 := by omega
  have hmpB : 0 ≤ mp ∧ mp ≤ 11 := by
    constructor
    · rw [hmp]; omega
    · rw [hmp]; omega
  have hdB : 1 ≤ d ∧ d ≤ 31 := by
    have h153 : 153 * mp ≤ 5 * doy + 2 ∧ 5 * doy + 2 < 153 * mp + 153 := by
      constructor <;> rw [hmp] <;> omega
    rw [hd]; omega
  have hstep3 : era * 146097 + doe - 719468 = z := by
    rw [hdoe, hera, hzs]; omega
  have hera2 : (yoe + era * 400) / 400 = era := by omega
  clear e1 e2 k2 k1 hdoeB hyoeB hdoyB
  clear_value zs era doe t yoe doy mp d
  clear hzs hera hdoe hyoe hmp
  by_cases hmp10 : mp < 10
  · have hmth : mp + (if mp < 10 then (3:Int) else -9) = mp + 3 := by rw [if_pos hmp10]
    rw [hmth]
    have hm2 : ¬ (mp + 3 ≤ 2) := by omega
    rw [if_neg hm2]
    refine ⟨?_, by omega, by omega, by omega, by omega⟩
    simp only [daysFromCivil]
    simp only [if_neg hm2]
    have hyA : yoe + era * 400 + 0 - 0 = yoe + era * 400 := by ring
    rw [hyA, hera2]
    have hyoeE : yoe + era * 400 - era * 400 = yoe := by ring
    rw [hyoeE]
    have hg : (2:Int) < mp + 3 := by omega
    rw [if_pos hg]
    have hmpE : mp + 3 + -3 = mp := by ring
    rw [hmpE]
    omega
  · have hmth : mp + (if mp < 10 then (3:Int) else -9) = mp + -9 := by rw [if_neg hmp10]
    rw [hmth]
    have hm2 : mp + -9 ≤ 2 := by omega
    rw [if_pos hm2]
    refine ⟨?_, by omega, by omega, by omega, by omega⟩
    simp only [daysFromCivil]
    simp only [if_pos hm2]
    have hyA : yoe + era * 400 + 1 - 1 = yoe + era * 400 := by ring
    rw [hyA, hera2]
    have hyoeE : yoe + era * 400 - era * 400 = yoe := by ring
    rw [hyoeE]
    have hg : ¬ ((2:Int) < mp + -9) := by omega
    rw [if_neg hg]
    have hmpE : mp + -9 + 9 = mp := by ring
    rw [hmpE]
    omega

/-- `daysFromCivil` is linear in the day-of-month argument. -/
theorem daysFromCivil_day_linear (y m d : Int) :
    daysFromCivil y m d = daysFromCivil y m 1 + (d - 1) := by
  simp only [daysFromCivil]
  split_ifs <;> ring

/-- `Number` applied to the printed form of a non-negative integer gives the
integer back. -/
theorem jsNumberOfChars_intChars (k : Int) (hk : 0 ≤ k) :
    jsNumberOfChars (intChars k) = some k := by
  rw [intChars, if_neg (by omega : ¬ (k < 0)), jsNumberOfChars_natChars,
    Int.toNat_of_nonneg hk]

/-- The printed form of a non-negative integer contains no dash. -/
theorem dash_not_mem_intChars (k : Int) (hk : 0 ≤ k) : ¬ ('-' ∈ intChars k) := by
  rw [intChars, if_neg (by omega : ¬ (k < 0))]
  exact dash_not_mem_natChars _

/-- C10 (amended): for every instant whose local calendar year is at least
100, `parseDayKey (dayKey t)` succeeds and returns exactly the midnight of
the instant's day, `startOfDay t`.  The restriction is necessary: for years
0–99 the `Date` constructor's 1900 offset (and for negative years the dash
in the printed year) breaks the round trip. -/
theorem parseDayKey_dayKey (t : Int) (hy : 100 ≤ jsGetFullYear t) :
    parseDayKey (dayKey t) = some (startOfDay t) := by
  have hcb := civilFromDays_correct (epochDay t)
  have hY : jsGetFullYear t = (civilFromDays (epochDay t)).1 := rfl
  have hM : jsGetMonth t = (civilFromDays (epochDay t)).2.1 - 1 := rfl
  have hD : jsGetDate t = (civilFromDays (epochDay t)).2.2 := rfl
  have hY0 : 0 ≤ jsGetFullYear t := by omega
  have hM0 : 0 ≤ jsGetMonth t ∧ jsGetMonth t ≤ 11 := by rw [hM]; omega
  have hD0 : 0 ≤ jsGetDate t := by rw [hD]; omega
  have hsplit : splitOnChar '-' (dayKey t) =
      [intChars (jsGetFullYear t), intChars (jsGetMonth t), intChars (jsGetDate t)] := by
    rw [dayKey]
    rw [List.append_assoc, List.cons_append]
    rw [splitOnChar_append_sep _ _ _ (dash_not_mem_intChars _ hY0)]
    rw [splitOnChar_append_sep _ _ _ (dash_not_mem_intChars _ hM0.1)]
    rw [splitOnChar_no_sep _ _ (dash_not_mem_intChars _ hD0)]
  rw [parseDayKey]
  simp only [hsplit]
  simp only [List.getElem?_cons_zero, List.getElem?_cons_succ, Option.some_bind]
  rw [jsNumberOfChars_intChars _ hY0, jsNumberOfChars_intChars _ hM0.1,
    jsNumberOfChars_intChars _ hD0]
  simp only []
  rw [jsMakeDate]
  have hnq : ¬ (0 ≤ jsGetFullYear t ∧ jsGetFullYear t ≤ 99) := by omega
  rw [if_neg hnq]
  have hdiv : jsGetMonth t / 12 = 0 := Int.ediv_eq_zero_of_lt hM0.1 (by omega)
  have hmod : jsGetMonth t % 12 = jsGetMonth t := Int.emod_eq_of_lt hM0.1 (by omega)
  rw [hdiv, hmod]
  have hy1 : jsGetFullYear t + 0 = jsGetFullYear t := by ring
  rw [hy1]
  rw [← daysFromCivil_day_linear]
  have hm1 : jsGetMonth t + 1 = (civilFromDays (epochDay t)).2.1 := by rw [hM]; ring
  rw [hm1, hY, hD, hcb.1]
  rw [startOfDay, epochDay]
  congr 1
  omega

/-- Counterexample to C10 as stated: for a day in year 50 the key round
trip lands in year 1950, not back on the original day — `parseDayKey` feeds
the printed year into the `Date` constructor, which maps 0–99 to 1900+year. -/
theorem parseDayKey_dayKey_quirk :
    (parseDayKey (dayKey (daysFromCivil 50 1 5 * 86400000))).map jsGetFullYear = some 1950 ∧
    jsGetFullYear (startOfDay (daysFromCivil 50 1 5 * 86400000)) = 50 ∧
    (50 : Int) < 1950 := by
  refine ⟨by decide, by decide, by decide⟩

/-- Witness for C10's amended theorem at 2026-02-10: the key of that day
parses back to that day's midnight. -/
theorem parseDayKey_dayKey_witness :
    100 ≤ jsGetFullYear 1770681600000 ∧
    parseDayKey (dayKey 1770681600000) = some (startOfDay 1770681600000) :=
  ⟨by decide, parseDayKey_dayKey 1770681600000 (by decide)⟩

end Scheduler
